import Mathlib

/-!
Verification of the question-extraction pipeline (`question.py`,
`ollama_solver.py`).

Text is modelled as `List Char`.  The two structural regexes of
`QuestionExtractor` (`question_block_pattern` and
`question_delimiter_pattern`) are embedded as deterministic character-level
matchers; the analysis in the comments below records why the greedy/lazy
regex operators are deterministic for these particular patterns, so the
functional embedding computes exactly what `re.findall` / `re.search`
compute (ASCII model of `\s`, `\d`, `\w` and of `re.IGNORECASE`).

External collaborators (the HTTP service behind `query_ollama`, the PDF
renderer behind `page.search_for` / `get_pixmap`) are modelled as oracle
parameters, and the fixed list of question-sentence regexes in
`extract_question_text` is abstracted as a list of matcher functions,
because every claim about that cascade quantifies over the patterns.
-/

/-- ASCII model of Python's `\s` character class (also used by `str.strip`). -/
def isPySpace (c : Char) : Bool :=
  c == ' ' || c == '\t' || c == '\n' || c == '\r' || c == '\x0b' || c == '\x0c'

/-- ASCII model of Python's `\d` character class. -/
def isDig (c : Char) : Bool :=
  48 ≤ c.toNat && c.toNat ≤ 57

/-- ASCII lower-casing, modelling Python's case folding on the ASCII
literals that occur in the source. -/
def lowerc (c : Char) : Char :=
  if 65 ≤ c.toNat ∧ c.toNat ≤ 90 then Char.ofNat (c.toNat + 32) else c

/-- Case-insensitive literal match: `pat` is given lower-cased; on success
returns the consumed characters (in original case) and the rest.
Models matching a literal inside an `re.IGNORECASE` pattern. -/
def matchLitCI : List Char → List Char → Option (List Char × List Char)
  | [], s => some ([], s)
  | _ :: _, [] => none
  | p :: ps, c :: cs =>
    if p = lowerc c then
      match matchLitCI ps cs with
      | some (a, r) => some (c :: a, r)
      | none => none
    else none

/-- Greedy character-class repetition (`\s*`, `\d+` cores): the maximal
run satisfying `p` and the rest. -/
def spanP (p : Char → Bool) (s : List Char) : List Char × List Char :=
  (s.takeWhile p, s.dropWhile p)

def qnumLit : List Char := "question number".data

def qidLit : List Char := "question id".data

/-- Matcher for the leading part `Question Number\s*:` shared by both
structural regexes of `QuestionExtractor.__init__` (question.py:21-22).
Greedy `\s*` followed by `:` is deterministic because `:` is not a space.
On success returns (consumed, rest). -/
def matchDelimHead (s : List Char) : Option (List Char × List Char) :=
  match matchLitCI qnumLit s with
  | none => none
  | some (a, r) =>
    match spanP isPySpace r with
    | (sp, c :: r2) => if c = ':' then some (a ++ sp ++ [c], r2) else none
    | (_, []) => none

/-- `int(...)` on a nonempty ASCII digit string. -/
def digitsVal (l : List Char) : Nat :=
  l.foldl (fun acc c => 10 * acc + (c.toNat - 48)) 0

/-- Matcher for the full delimiter regex
`Question Number\s*:\s*(\d+)\s+Question Id\s*:\s*(\d+)`
(question.py:21) at the head of the input.  Every greedy repetition here
is deterministic (digits are not spaces and vice versa, `:` and `Q` are
neither).  On success returns
(`int(group(1))`, group(2) as characters, consumed span, rest). -/
def matchDelimFull (s : List Char) : Option (Nat × List Char × List Char × List Char) :=
  match matchDelimHead s with
  | none => none
  | some (h1, r1) =>
    let p1 := spanP isPySpace r1
    let p2 := spanP isDig p1.2
    if p2.1 = [] then none else
    let p3 := spanP isPySpace p2.2
    if p3.1 = [] then none else
    match matchLitCI qidLit p3.2 with
    | none => none
    | some (h2, r4) =>
      let p4 := spanP isPySpace r4
      match p4.2 with
      | c5 :: r6 =>
        if c5 = ':' then
          let p5 := spanP isPySpace r6
          let p6 := spanP isDig p5.2
          if p6.1 = [] then none else
          some (digitsVal p2.1, p6.1,
                h1 ++ p1.1 ++ p2.1 ++ p3.1 ++ h2 ++ p4.1 ++ [c5] ++ p5.1 ++ p6.1,
                p6.2)
        else none
      | [] => none

/-- `re.search` of the delimiter regex over a block
(question.py:72): try every start position, leftmost first; return the two
captured groups. -/
def searchDelimFull : List Char → Option (Nat × List Char)
  | [] => none
  | c :: t =>
    match matchDelimFull (c :: t) with
    | some (n, d2, _, _) => some (n, d2)
    | none => searchDelimFull t

/-- Number of positions of the text where the block-splitting head
`Question Number\s*:` matches (each such position starts one raw block of
`re.findall(question_block_pattern, ...)`). -/
def delimCount : List Char → Nat
  | [] => 0
  | c :: t => (if (matchDelimHead (c :: t)).isSome then 1 else 0) + delimCount t

/-- Number of positions of the text where the full well-formed delimiter
regex matches. -/
def wfDelimCount : List Char → Nat
  | [] => 0
  | c :: t => (if (matchDelimFull (c :: t)).isSome then 1 else 0) + wfDelimCount t

/-- Split the text at the first position where the block head matches:
(characters skipped by the regex scan, suffix starting at the match).
This is the scan `re.findall` performs before its first match. -/
def splitAtDelim : List Char → List Char × List Char
  | [] => ([], [])
  | c :: t =>
    if (matchDelimHead (c :: t)).isSome then ([], c :: t)
    else
      let p := splitAtDelim t
      (c :: p.1, p.2)

/-- The lazy body `.*?(?=Question Number\s*:|$)` of the block regex with
`re.DOTALL` and no `re.MULTILINE`: consume characters until the first
position where either the head matches again, or the position is the end
of the string, or the position is just before a final newline (Python's
`$`).  Returns (consumed body, suffix at the stop position). -/
def scanStop : List Char → List Char × List Char
  | [] => ([], [])
  | c :: t =>
    if (matchDelimHead (c :: t)).isSome then ([], c :: t)
    else if c = '\n' ∧ t = [] then ([], [c])
    else
      let p := scanStop t
      (c :: p.1, p.2)

/-- One match of the block regex
`(Question Number\s*:.*?)(?=Question Number\s*:|$)` at the head of the
input: the matched block and the suffix where scanning resumes. -/
def takeBlock (s : List Char) : Option (List Char × List Char) :=
  match matchDelimHead s with
  | none => none
  | some (h, r) =>
    let p := scanStop r
    some (h ++ p.1, p.2)

/-- All raw blocks of
`re.findall(question_block_pattern, text, re.DOTALL | re.IGNORECASE)`
(question.py:67), by repeated scan/match.  The fuel argument only bounds
the recursion; `rawBlocksAux s.length s` never exhausts it because every
match consumes at least the nonempty head. -/
def rawBlocksAux : Nat → List Char → List (List Char)
  | 0, _ => []
  | fuel + 1, s =>
    match takeBlock (splitAtDelim s).2 with
    | none => []
    | some (b, rest) => b :: rawBlocksAux fuel rest

def rawBlocks (s : List Char) : List (List Char) :=
  rawBlocksAux s.length s

/-- Python `str.strip()`: drop leading and trailing whitespace. -/
def pyStrip (s : List Char) : List Char :=
  ((s.dropWhile isPySpace).reverse.dropWhile isPySpace).reverse

/-- Python `max(matches, key=len)`: the first element of maximal length
(`max` keeps the current element unless a later one is strictly greater). -/
def pyMaxByLen : List (List Char) → List Char
  | [] => []
  | [x] => x
  | x :: y :: t =>
    let m := pyMaxByLen (y :: t)
    if x.length < m.length then m else x

/-- A question-sentence pattern of `extract_question_text`, abstracted as
its `re.findall` behaviour on a block: the list of candidate substrings it
produces.  The claims about the cascade quantify over the patterns, so the
eight concrete regexes (question.py:94-103) stay abstract. -/
abbrev Matcher := List Char → List (List Char)

/-- The pattern loop of `extract_question_text` (question.py:105-110):
for each pattern in priority order, if it has matches, take the longest,
strip it, and accept it only if it is longer than 15 characters and
contains a question mark; otherwise move to the next pattern.
`none` means the cascade fell through to the AI fallback. -/
def cascadePatterns : List Matcher → List Char → Option (List Char)
  | [], _ => none
  | p :: ps, block =>
    let ms := p block
    if ms = [] then cascadePatterns ps block
    else
      let question := pyStrip (pyMaxByLen ms)
      if 15 < question.length ∧ '?' ∈ question then some question
      else cascadePatterns ps block

/-- The boilerplate removal
`re.sub(r'^(Question:|Answer:|The question is:?)', '', question, flags=re.IGNORECASE)`
(question.py:128): anchored at the start, so at most the one leading
occurrence is removed; alternatives are tried left to right. -/
def stripBoiler (q : List Char) : List Char :=
  match matchLitCI "question:".data q with
  | some (_, r) => r
  | none =>
    match matchLitCI "answer:".data q with
    | some (_, r) => r
    | none =>
      match matchLitCI "the question is".data q with
      | some (_, r) =>
        match r with
        | ':' :: r2 => r2
        | _ => r
      | none => q

/-- Python `question.lower().startswith('i cannot')` (ASCII model). -/
def lcStartsWith (pat q : List Char) : Bool :=
  pat.isPrefixOf (q.map lowerc)

/-- The guaranteed fallback `f"Question {block[:50]}..."` (question.py:133). -/
def placeholder (block : List Char) : List Char :=
  "Question ".data ++ block.take 50 ++ "...".data

/-- The prompt built by `extract_question_with_ai` (question.py:117-123),
with the bounded prefix `block[:1000]`. -/
def aiPrompt (block : List Char) : List Char :=
  "Extract the main question from this exam block.\nReturn only the question text, nothing else.\n\nBlock:\n".data
    ++ block.take 1000 ++ "\n\nQuestion:".data

/-- The acceptance check applied to the AI response
(question.py:126-131): a missing or falsy response, or a processed
response of at most 10 characters, or one starting with the refusal
phrase, is rejected.  (An empty string response is falsy in Python; it is
rejected here by the length check, giving the same result.) -/
def aiAccepted (resp : Option (List Char)) : Option (List Char) :=
  match resp with
  | none => none
  | some r =>
    let question := pyStrip (stripBoiler (pyStrip r))
    if 10 < question.length ∧ ¬ lcStartsWith "i cannot".data question then some question
    else none

/-- `extract_question_with_ai` (question.py:115-133), with the AI
collaborator abstracted as `ai : prompt ↦ optional response text`. -/
def extract_question_with_ai (ai : List Char → Option (List Char)) (block : List Char) : List Char :=
  match aiAccepted (ai (aiPrompt block)) with
  | some q => q
  | none => placeholder block

/-- `extract_question_text` (question.py:91-113): pattern cascade first,
AI fallback second. -/
def extract_question_text (pats : List Matcher) (ai : List Char → Option (List Char))
    (block : List Char) : List Char :=
  match cascadePatterns pats block with
  | some q => q
  | none => extract_question_with_ai ai block

/-- One question record of `extract_question_blocks` (question.py:81-87). -/
structure QBlock where
  question_number : Nat
  question_id : List Char
  question_text : List Char
  full_block : List Char
  block_index : Nat
deriving DecidableEq, Repr

/-- The `for i, block in enumerate(question_blocks)` loop of
`extract_question_blocks` (question.py:71-87): keep a block only if the
delimiter regex matches somewhere inside it; `block_index` is the
enumeration index over all raw blocks, kept or not. -/
def filterBlocksAux (pats : List Matcher) (ai : List Char → Option (List Char)) :
    Nat → List (List Char) → List QBlock
  | _, [] => []
  | i, b :: bs =>
    match searchDelimFull b with
    | some (n, qid) =>
      ⟨n, qid, extract_question_text pats ai b, b, i⟩ :: filterBlocksAux pats ai (i + 1) bs
    | none => filterBlocksAux pats ai (i + 1) bs

/-- `extract_question_blocks` (question.py:65-89). -/
def extract_question_blocks (pats : List Matcher) (ai : List Char → Option (List Char))
    (text : List Char) : List QBlock :=
  filterBlocksAux pats ai 0 (rawBlocks text)

/-- A `fitz.Rect`: coordinates modelled as rationals. -/
structure Rect where
  x0 : ℚ
  y0 : ℚ
  x1 : ℚ
  y1 : ℚ
deriving DecidableEq, Repr

def Rect.width (r : Rect) : ℚ := r.x1 - r.x0

def Rect.height (r : Rect) : ℚ := r.y1 - r.y0

/-- A PDF page as `process_pdf` observes it: its extracted text
(`page.get_text()`), its literal-search collaborator
(`page.search_for`, returning the list of matching boxes), its rectangle,
and whether rendering+saving a pixmap of it succeeds (the `try` body of
`extract_question_image` is abstracted by this flag). -/
structure Page where
  text : List Char
  search : List Char → List Rect
  rect : Rect
  renderOk : Bool

/-- `query_ollama` (question.py:47-63): the network interaction is the
oracle `resp`; `none` is a raised exception (connection error, timeout),
`some (status, parsed)` a reply, with `parsed = none` when reading the
JSON `response` field raises.  Only a 200 status with a readable field
returns text; everything else returns `None`. -/
def query_ollama (resp : Option (Nat × Option (List Char))) : Option (List Char) :=
  match resp with
  | some (status, parsed) => if status = 200 then parsed else none
  | none => none

/-- `find_question_on_page` (question.py:135-147): search strategies in
order, first matching strategy's first box wins. -/
def find_question_on_page (page : Page) (question_number : Nat) (question_id : List Char) :
    Option Rect :=
  match page.search ("Question Number : ".data ++ (Nat.repr question_number).data) with
  | r :: _ => some r
  | [] =>
    match page.search ("Question Id : ".data ++ question_id) with
    | r :: _ => some r
    | [] => none

/-- The crop rectangle computed by `extract_question_image`
(question.py:154-168). -/
def clip_rect (page_rect : Rect) (question_bbox next_question_bbox : Option Rect) : Rect :=
  match question_bbox with
  | none => ⟨0, 0, page_rect.width, page_rect.height⟩
  | some q =>
    let y0 := max 0 (q.y0 - 20)
    let y1 :=
      match next_question_bbox with
      | some nb => max (q.y1 + 50) (nb.y0 - 15)
      | none => min page_rect.height (q.y1 + 300)
    ⟨0, y0, page_rect.width, y1⟩

/-- `extract_question_image` (question.py:149-182): computes the clip
rectangle and renders it; any rendering/saving exception yields `False`
(abstracted by `page.renderOk`). -/
def extract_question_image (page : Page) (question_bbox next_question_bbox : Option Rect) :
    Rect × Bool :=
  (clip_rect page.rect question_bbox next_question_bbox, page.renderOk)

/-- An `extracted_questions` entry of `process_pdf` (question.py:272-279). -/
structure Extracted where
  question_number : Nat
  question_id : List Char
  page : Nat
  question_text : List Char
  filename : List Char
  file_path : List Char
deriving DecidableEq, Repr

/-- ASCII model of regex `\w`. -/
def isWordChar (c : Char) : Bool :=
  (48 ≤ c.toNat && c.toNat ≤ 57) || (65 ≤ c.toNat && c.toNat ≤ 90) ||
    (97 ≤ c.toNat && c.toNat ≤ 122) || c = '_'

/-- `re.sub(r'[-\s]+', '_', s)`: replace every maximal run of dashes and
whitespace by one underscore (fuel = length, structurally decreasing). -/
def collapseAux : Nat → List Char → List Char
  | 0, _ => []
  | _, [] => []
  | fuel + 1, c :: t =>
    if c = '-' || isPySpace c then
      '_' :: collapseAux fuel (t.dropWhile (fun d => d = '-' || isPySpace d))
    else c :: collapseAux fuel t

/-- The filename sanitisation of `process_pdf` (question.py:260-261):
drop non-word/space/dash characters from the first 40 characters, replace
dash/space runs by `_`, strip `_` from both ends. -/
def safeText (s : List Char) : List Char :=
  let s1 := (s.take 40).filter (fun c => isWordChar c || isPySpace c || c = '-')
  let s2 := collapseAux s1.length s1
  ((s2.dropWhile (· = '_')).reverse.dropWhile (· = '_')).reverse

/-- `f"{n:03d}"`: decimal digits left-padded with zeros to width 3. -/
def pad3 (n : Nat) : List Char :=
  let d := (Nat.repr n).data
  List.replicate (3 - d.length) '0' ++ d

/-- The literal page-search text `f"Question Number : {question_number}"`
(question.py:233). -/
def searchTextQN (question_number : Nat) : List Char :=
  "Question Number : ".data ++ (Nat.repr question_number).data

/-- The page-resolution loop `for page_num in range(len(doc))`
(question.py:231-237): first page, in ascending order, whose search for
the literal text is non-empty. -/
def findPage : List Page → List Char → Nat → Option (Nat × Page)
  | [], _, _ => none
  | p :: ps, s, k =>
    if p.search s = [] then findPage ps s (k + 1) else some (k, p)

/-- The body of the per-question loop of `process_pdf`
(question.py:226-280) for the block at enumeration index `i`: resolve the
page, locate start and (same-page) next-question boxes, build the image
path, attempt the crop; `none` means the block is skipped (page not found
or crop failed) and contributes nothing. -/
def processBlock (output_dir : List Char) (pages : List Page) (qbs : List QBlock)
    (i : Nat) (qd : QBlock) : Option Extracted :=
  match findPage pages (searchTextQN qd.question_number) 0 with
  | none => none
  | some (pnum, page) =>
    let question_bbox := find_question_on_page page qd.question_number qd.question_id
    let next_question_bbox :=
      if h : i + 1 < qbs.length then
        let nd := qbs.get ⟨i + 1, h⟩
        find_question_on_page page nd.question_number nd.question_id
      else none
    let safe_text := safeText qd.question_text
    let img_filename :=
      "Q".data ++ pad3 qd.question_number ++ "_P".data ++ (Nat.repr (pnum + 1)).data
        ++ "_".data ++ safe_text ++ ".png".data
    let img_path := output_dir ++ "/".data ++ img_filename
    if (extract_question_image page question_bbox next_question_bbox).2 then
      some ⟨qd.question_number, qd.question_id, pnum + 1, qd.question_text,
            img_filename, img_path⟩
    else none

/-- The per-question loop itself: skipping never aborts, successes
accumulate in order. -/
def processLoop (output_dir : List Char) (pages : List Page) (qbs : List QBlock) :
    Nat → List QBlock → List Extracted
  | _, [] => []
  | i, qd :: rest =>
    match processBlock output_dir pages qbs i qd with
    | some e => e :: processLoop output_dir pages qbs (i + 1) rest
    | none => processLoop output_dir pages qbs (i + 1) rest

/-- The two artifact paths written by `generate_reports`
(question.py:296-355); the report contents are out of the modelled scope,
the claims only concern whether the files are produced. -/
def reportsPaths (output_dir : List Char) : List Char × List Char :=
  (output_dir ++ "/extraction_report.txt".data, output_dir ++ "/viewer.html".data)

/-- The `results` dictionary of `process_pdf` (question.py:186-194). -/
structure Results where
  success : Bool
  message : List Char
  questions_found : Nat
  questions_extracted : Nat
  output_files : List (List Char)
  report_path : List Char
  viewer_path : List Char
deriving DecidableEq, Repr

/-- The environment `process_pdf` runs in: the outcome of
`check_ollama_status` (flag and its message), the opened PDF (`none` when
`fitz.open` raises, with the exception text), and the network oracle for
`query_ollama`, per prompt. -/
structure PdfEnv where
  ollamaOk : Bool
  ollamaMsg : List Char
  doc : Option (List Page)
  pdfErr : List Char
  net : List Char → Option (Nat × Option (List Char))

/-- `process_pdf` (question.py:184-294).  Returns the `results` dictionary
together with the list of file paths written during the run (one image per
successful crop, then the report and the viewer when `generate_reports`
runs).  The early returns (Ollama precondition, unopenable PDF, empty
segmentation) write nothing. -/
def process_pdf (pats : List Matcher) (env : PdfEnv) (output_dir : List Char) :
    Results × List (List Char) :=
  if env.ollamaOk = false then
    ({ success := false, message := "Ollama Error: ".data ++ env.ollamaMsg,
       questions_found := 0, questions_extracted := 0, output_files := [],
       report_path := [], viewer_path := [] }, [])
  else
    match env.doc with
    | none =>
      ({ success := false, message := "Cannot open PDF: ".data ++ env.pdfErr,
         questions_found := 0, questions_extracted := 0, output_files := [],
         report_path := [], viewer_path := [] }, [])
    | some pages =>
      let full_text := (pages.map (fun p => p.text ++ ['\n'])).flatten
      let ai := fun prompt => query_ollama (env.net prompt)
      let qbs := extract_question_blocks pats ai full_text
      if qbs = [] then
        ({ success := false, message := "No questions found using structural pattern".data,
           questions_found := qbs.length, questions_extracted := 0, output_files := [],
           report_path := [], viewer_path := [] }, [])
      else
        let extracted := processLoop output_dir pages qbs 0 qbs
        let output_files := extracted.map (·.file_path)
        let rp := (reportsPaths output_dir).1
        let vp := (reportsPaths output_dir).2
        ({ success := true,
           message := "Successfully extracted ".data ++ (Nat.repr extracted.length).data
             ++ " questions".data,
           questions_found := qbs.length, questions_extracted := extracted.length,
           output_files := output_files, report_path := rp, viewer_path := vp },
         output_files ++ [rp, vp])
/-- Canned solution text 0 of `simulate_solution` (ollama_solver.py). -/
def cannedSol0 (question_number : Nat) : String :=
  "\\textbf\x7bQuestion "
    ++ Nat.repr question_number ++ ":\x7d A jar contains 6 red balls and 8 blue balls. Two balls are drawn without replacement. What is the probability that the first ball is red and the second ball is blue?\n\n\\textbf\x7bSolution:\x7d\n\\begin\x7benumerate\x7d\n\\item \\textbf\x7bStep 1:\x7d This is a probability problem with drawing without replacement. We need P(first red AND second blue).\n\\item \\textbf\x7bStep 2:\x7d Given information: Red balls: 6, Blue balls: 8, Total balls: 14, Drawing without replacement\n\\item \\textbf\x7bStep 3:\x7d For dependent events: $P(A \\text\x7b and \x7d B) = P(A) \\times P(B|A)$\n\\item \\textbf\x7bStep 4:\x7d Calculate: $P(\\text\x7bfirst red\x7d) = \\frac\x7b6\x7d\x7b14\x7d = \\frac\x7b3\x7d\x7b7\x7d$, $P(\\text\x7bsecond blue | first red\x7d) = \\frac\x7b8\x7d\x7b13\x7d$\n\\item \\textbf\x7bStep 5:\x7d Final: $P(\\text\x7bboth events\x7d) = \\frac\x7b3\x7d\x7b7\x7d \\times \\frac\x7b8\x7d\x7b13\x7d = \\frac\x7b24\x7d\x7b91\x7d \\approx 0.264$\n\\end\x7benumerate\x7d\n\n\\textbf\x7bAnswer:\x7d $\\frac\x7b24\x7d\x7b91\x7d$ or approximately 0.264 (26.4%)\n\n\\textbf\x7bKey Concepts:\x7d Conditional probability, dependent events, multiplication rule"

/-- Canned solution text 1 of `simulate_solution` (ollama_solver.py). -/
def cannedSol1 (question_number : Nat) : String :=
  "\\textbf\x7bQuestion "
    ++ Nat.repr question_number ++ ":\x7d Customers enter a store following a Poisson distribution with rate 8 per hour. What's the probability exactly 5 customers enter in 15 minutes?\n\n\\textbf\x7bSolution:\x7d\n\\begin\x7benumerate\x7d\n\\item \\textbf\x7bStep 1:\x7d This is a Poisson distribution problem. We need to adjust the rate for 15 minutes.\n\\item \\textbf\x7bStep 2:\x7d Given: Rate = 8 customers/hour, Time = 15 minutes = 0.25 hours, Want: P(X = 5)\n\\item \\textbf\x7bStep 3:\x7d Adjust rate: $\\lambda = 8 \\times 0.25 = 2$ (for 15 min), Use: $P(X = k) = \\frac\x7b\\lambda^k e^\x7b-\\lambda\x7d\x7d\x7bk!\x7d$\n\\item \\textbf\x7bStep 4:\x7d Calculate: $P(X = 5) = \\frac\x7b2^5 e^\x7b-2\x7d\x7d\x7b5!\x7d = \\frac\x7b32 \\times 0.1353\x7d\x7b120\x7d = 0.036$\n\\item \\textbf\x7bStep 5:\x7d The probability is 0.036 or 3.6%\n\\end\x7benumerate\x7d\n\n\\textbf\x7bAnswer:\x7d 0.036 (3.6%)\n\n\\textbf\x7bKey Concepts:\x7d Poisson distribution, rate conversion, exponential calculations"

/-- Canned solution text 2 of `simulate_solution` (ollama_solver.py). -/
def cannedSol2 (question_number : Nat) : String :=
  "\\textbf\x7bQuestion "
    ++ Nat.repr question_number ++ ":\x7d The average of 15 observations is 45. First 8 observations average 41, last 8 average 53. Find the 8th observation.\n\n\\textbf\x7bSolution:\x7d\n\\begin\x7benumerate\x7d\n\\item \\textbf\x7bStep 1:\x7d This involves overlapping groups. The 8th observation appears in both groups.\n\\item \\textbf\x7bStep 2:\x7d Given: 15 observations (mean=45), First 8 (mean=41), Last 8 (mean=53)\n\\item \\textbf\x7bStep 3:\x7d Calculate sums: Total = $15 \\times 45 = 675$, First 8 = $8 \\times 41 = 328$, Last 8 = $8 \\times 53 = 424$\n\\item \\textbf\x7bStep 4:\x7d The 8th observation is counted twice: $328 + 424 - \\text\x7b8th obs\x7d = 675$\n\\item \\textbf\x7bStep 5:\x7d Solve: 8th observation = $752 - 675 = 77$\n\\end\x7benumerate\x7d\n\n\\textbf\x7bAnswer:\x7d 77\n\n\\textbf\x7bKey Concepts:\x7d Mean calculations, overlapping groups, algebraic manipulation"
/-- `simulate_solution` (ollama_solver.py:109-158): the fixed list of three
canned solutions, indexed by `question_number % 3`, with the horizontal
rule suffix appended (a plain Python string, so the backslash escapes are
literal text). -/
def solutionsList (question_number : Nat) : List String :=
  [cannedSol0 question_number, cannedSol1 question_number, cannedSol2 question_number]

def simulate_solution (question_number : Nat) : String :=
  (solutionsList question_number).getD (question_number % 3) ""
    ++ "\\n\\n\\hrule\\n\\vspace\x7b1em\x7d\\n"

/-- `send_image_to_ollama` (ollama_solver.py:50-107).  `encoded` is the
result of `encode_image_base64` (`none`: the image could not be read or
encoded); `resp` is the network oracle: `none` for a raised request
exception, otherwise the status code and the optional parsed `response`
field (`none` when `response.json()` raises, which lands in the same
`except` branch).  Every failure path returns the simulated solution. -/
def send_image_to_ollama (encoded : Option String) (resp : Option (Nat × Option String))
    (question_number : Nat) : String :=
  match encoded with
  | none => simulate_solution question_number
  | some _ =>
    match resp with
    | none => simulate_solution question_number
    | some (status, parsed) =>
      if status = 200 then
        match parsed with
        | some r => r
        | none => simulate_solution question_number
      else simulate_solution question_number

/-- The shape of a span consumed by `matchDelimHead`: the literal
`Question Number` (case-insensitively), a run of whitespace, then `:`. -/
def headShape (h : List Char) : Prop :=
  ∃ a sp, h = a ++ sp ++ [':'] ∧ a.map lowerc = qnumLit ∧ ∀ c ∈ sp, isPySpace c = true

/-- The shape of a span consumed by `matchDelimFull`, together with the
values of its two captured groups. -/
def fullShape (n : Nat) (d2 con : List Char) : Prop :=
  ∃ h1 sp1 d1 sp2 h2 sp3 sp4,
    con = h1 ++ (sp1 ++ (d1 ++ (sp2 ++ (h2 ++ (sp3 ++ (':' :: (sp4 ++ d2))))))) ∧
    headShape h1 ∧
    (∀ c ∈ sp1, isPySpace c = true) ∧
    (∀ c ∈ d1, isDig c = true) ∧ d1 ≠ [] ∧
    (∀ c ∈ sp2, isPySpace c = true) ∧ sp2 ≠ [] ∧
    h2.map lowerc = qidLit ∧
    (∀ c ∈ sp3, isPySpace c = true) ∧
    (∀ c ∈ sp4, isPySpace c = true) ∧
    (∀ c ∈ d2, isDig c = true) ∧ d2 ≠ [] ∧
    n = digitsVal d1

/-- An AI oracle that always fails (used by concrete evaluations). -/
def noAi : List Char → Option (List Char) := fun _ => none

/-- Concrete input refuting the partition part of the segmentation claim:
the leading `x ` is covered by no block. -/
def c1Text : List Char := "x Question Number : 1 Question Id : 2 A".data

/-- Concrete input whose first raw block has no well-formed delimiter, so
the kept blocks' enumeration indices start at 1, not 0. -/
def c9Text : List Char := "Question Number : x Question Number : 1 Question Id : 2 y".data

/-- A well-behaved two-question text: every delimiter occurrence is
well-formed and it does not end with a newline. -/
def okText : List Char :=
  "Question Number : 1 Question Id : 2 a Question Number : 3 Question Id : 4 b".data

/-- A page whose text contains no question delimiters. -/
def pageNoQ : Page := ⟨"hello world".data, fun _ => [], ⟨0, 0, 612, 792⟩, true⟩

/-- An environment passing the Ollama precondition whose document
contains no question delimiters. -/
def envNoQ : PdfEnv := ⟨true, [], some [pageNoQ], [], fun _ => none⟩

/-- A page whose text contains two well-formed questions but whose literal
search finds nothing, so every crop is skipped. -/
def pageQ : Page := ⟨okText, fun _ => [], ⟨0, 0, 612, 792⟩, true⟩

/-- An environment passing the Ollama precondition with questions in the
text but no locatable page regions: blocks are found, none is extracted. -/
def envQ : PdfEnv := ⟨true, [], some [pageQ], [], fun _ => none⟩

/-- A page on which the literal search fails. -/
def pageA : Page := ⟨"alpha".data, fun _ => [], ⟨0, 0, 612, 792⟩, true⟩

/-- A page on which every literal search succeeds. -/
def pageB : Page := ⟨"beta".data, fun _ => [⟨10, 20, 30, 40⟩], ⟨0, 0, 612, 792⟩, true⟩

/-- A block record used to instantiate the per-block lemmas. -/
def qd0 : QBlock := ⟨1, "2".data, "t".data, "b".data, 0⟩

/-! ### Lemmas about the sentence cascade -/

theorem pyMaxByLen_mem : ∀ (l : List (List Char)), l ≠ [] → pyMaxByLen l ∈ l
  | [], h => absurd rfl h
  | [x], _ => by simp [pyMaxByLen]
  | x :: y :: t, _ => by
    have ih := pyMaxByLen_mem (y :: t) (by simp)
    by_cases h : x.length < (pyMaxByLen (y :: t)).length
    · simp only [pyMaxByLen, if_pos h]
      exact List.mem_cons_of_mem _ ih
    · simp only [pyMaxByLen, if_neg h]
      exact List.mem_cons_self _ _

theorem pyMaxByLen_le : ∀ (l : List (List Char)) (m : List Char), m ∈ l →
    m.length ≤ (pyMaxByLen l).length
  | [], m, h => absurd h (List.not_mem_nil m)
  | [x], m, h => by
    rcases List.mem_singleton.mp h with rfl
    simp [pyMaxByLen]
  | x :: y :: t, m, h => by
    rcases List.mem_cons.mp h with rfl | hm
    · by_cases hlt : m.length < (pyMaxByLen (y :: t)).length
      · simp only [pyMaxByLen, if_pos hlt]
        exact le_of_lt hlt
      · simp only [pyMaxByLen, if_neg hlt]
        exact le_refl _
    · have ih := pyMaxByLen_le (y :: t) m hm
      by_cases hlt : x.length < (pyMaxByLen (y :: t)).length
      · simp only [pyMaxByLen, if_pos hlt]
        exact ih
      · simp only [pyMaxByLen, if_neg hlt]
        exact le_trans ih (not_lt.mp hlt)

theorem cascadePatterns_accepts : ∀ (pats : List Matcher) (block q : List Char),
    cascadePatterns pats block = some q → 15 < q.length ∧ '?' ∈ q
  | [], block, q => by simp [cascadePatterns]
  | p :: ps, block, q => by
    intro h
    simp only [cascadePatterns] at h
    by_cases hm : p block = []
    · rw [if_pos hm] at h
      exact cascadePatterns_accepts ps block q h
    · rw [if_neg hm] at h
      by_cases hacc : 15 < (pyStrip (pyMaxByLen (p block))).length ∧
          '?' ∈ pyStrip (pyMaxByLen (p block))
      · rw [if_pos hacc] at h
        injection h with h
        subst h
        exact hacc
      · rw [if_neg hacc] at h
        exact cascadePatterns_accepts ps block q h

theorem cascadePatterns_skip (p : Matcher) (ps : List Matcher) (block : List Char)
    (h : p block = [] ∨
      ¬ (15 < (pyStrip (pyMaxByLen (p block))).length ∧ '?' ∈ pyStrip (pyMaxByLen (p block)))) :
    cascadePatterns (p :: ps) block = cascadePatterns ps block := by
  by_cases hm : p block = []
  · simp only [cascadePatterns, if_pos hm]
  · rcases h with h | h
    · exact absurd h hm
    · simp only [cascadePatterns, if_neg hm, if_neg h]

theorem cascadePatterns_cons (p : Matcher) (ps : List Matcher) (block : List Char)
    (h : p block ≠ []) :
    cascadePatterns (p :: ps) block =
      if 15 < (pyStrip (pyMaxByLen (p block))).length ∧ '?' ∈ pyStrip (pyMaxByLen (p block))
      then some (pyStrip (pyMaxByLen (p block)))
      else cascadePatterns ps block := by
  simp only [cascadePatterns, if_neg h]

/-- C5.  For every block in the pattern cascade of `extract_question_text`,
a candidate whose length is 15 characters or fewer, or which contains no
question mark, is never returned by the cascade, regardless of which
pattern in the priority list produced it; a rejected candidate causes the
next pattern to be tried. -/
theorem claim_C5 (pats : List Matcher) (block : List Char) :
    (∀ q, cascadePatterns pats block = some q → 15 < q.length ∧ '?' ∈ q) ∧
    (∀ (p : Matcher) (ps : List Matcher),
      (p block = [] ∨
        ¬ (15 < (pyStrip (pyMaxByLen (p block))).length ∧
            '?' ∈ pyStrip (pyMaxByLen (p block)))) →
      cascadePatterns (p :: ps) block = cascadePatterns ps block) :=
  ⟨fun q h => cascadePatterns_accepts pats block q h,
   fun p ps h => cascadePatterns_skip p ps block h⟩

/-- Witness for C5 at concrete inputs: an accepted candidate is long and
contains a question mark, and a rejected candidate falls through to the
next pattern. -/
theorem claim_C5_witness :
    (15 < "Is this a sufficiently long question?".data.length ∧
      '?' ∈ "Is this a sufficiently long question?".data) ∧
    cascadePatterns [fun _ => ["short?".data], fun _ => []] [] =
      cascadePatterns [fun _ => []] [] :=
  ⟨(claim_C5 [fun _ => ["Is this a sufficiently long question?".data]] []).1
      "Is this a sufficiently long question?".data (by decide),
   (claim_C5 [] []).2 (fun _ => ["short?".data]) [fun _ => []] (by decide)⟩

/-- C6.  For every block and every pattern in the cascade, when that
pattern yields multiple matches within the block, the candidate submitted
to the acceptance check is (the stripped form of) a match of maximum
length among them: `max(matches, key=len)` selects a longest match. -/
theorem claim_C6 (p : Matcher) (ps : List Matcher) (block : List Char) (h : p block ≠ []) :
    pyMaxByLen (p block) ∈ p block ∧
    (∀ m ∈ p block, m.length ≤ (pyMaxByLen (p block)).length) ∧
    cascadePatterns (p :: ps) block =
      (if 15 < (pyStrip (pyMaxByLen (p block))).length ∧
          '?' ∈ pyStrip (pyMaxByLen (p block))
       then some (pyStrip (pyMaxByLen (p block)))
       else cascadePatterns ps block) :=
  ⟨pyMaxByLen_mem (p block) h,
   fun m hm => pyMaxByLen_le (p block) m hm,
   cascadePatterns_cons p ps block h⟩

/-- Witness for C6: on a block yielding one short and one long
question-mark-terminated candidate, the longest is selected and accepted. -/
theorem claim_C6_witness :
    pyMaxByLen ((fun (_ : List Char) =>
        ["Short?".data, "A much longer question string, is it not?".data]) []) ∈
      ["Short?".data, "A much longer question string, is it not?".data] ∧
    cascadePatterns [fun _ => ["Short?".data,
        "A much longer question string, is it not?".data]] [] =
      some "A much longer question string, is it not?".data := by
  have h := claim_C6
    (fun _ => ["Short?".data, "A much longer question string, is it not?".data]) [] []
    (by decide)
  exact ⟨h.1, by rw [h.2.2]; decide⟩

/-! ### Lemmas about the AI fallback -/

theorem aiAccepted_length {resp : Option (List Char)} {q : List Char}
    (h : aiAccepted resp = some q) : 10 < q.length := by
  unfold aiAccepted at h
  cases resp with
  | none => exact absurd h (by simp)
  | some r =>
    simp only at h
    by_cases hc : 10 < (pyStrip (stripBoiler (pyStrip r))).length ∧
        ¬ lcStartsWith "i cannot".data (pyStrip (stripBoiler (pyStrip r)))
    · rw [if_pos hc] at h
      injection h with h
      subst h
      exact hc.1
    · rw [if_neg hc] at h
      exact absurd h (by simp)

theorem placeholder_ne_nil (block : List Char) : placeholder block ≠ [] := by
  simp [placeholder]

/-- C8.  For every block, `extract_question_text` terminates and returns a
non-empty string even when every AI collaborator call fails (connection
error, non-200 status, or timeout all make `query_ollama` yield `None`):
when the pattern cascade fails and the AI response is absent, too short
(10 characters or fewer), or begins with the refusal phrase, the result is
the guaranteed non-empty placeholder built by truncating the raw block
text.  (Termination is inherent: the embedding is a total function.) -/
theorem claim_C8 (pats : List Matcher) (net : List Char → Option (Nat × Option (List Char)))
    (block : List Char) :
    extract_question_text pats (fun pr => query_ollama (net pr)) block ≠ [] ∧
    (cascadePatterns pats block = none →
      aiAccepted (query_ollama (net (aiPrompt block))) = none →
      extract_question_text pats (fun pr => query_ollama (net pr)) block = placeholder block) := by
  constructor
  · cases hc : cascadePatterns pats block with
    | some q =>
      have hlen := (cascadePatterns_accepts pats block q hc).1
      simp only [extract_question_text, hc]
      intro hnil
      rw [hnil] at hlen
      simp at hlen
    | none =>
      simp only [extract_question_text, hc, extract_question_with_ai]
      cases ha : aiAccepted (query_ollama (net (aiPrompt block))) with
      | some q =>
        have hlen := aiAccepted_length ha
        show q ≠ []
        intro hnil
        rw [hnil] at hlen
        simp at hlen
      | none => exact placeholder_ne_nil block
  · intro h1 h2
    simp only [extract_question_text, h1, extract_question_with_ai, h2]

/-- Witness for C8: with an always-failing network oracle and an empty
pattern list, the result is exactly the placeholder, and non-empty. -/
theorem claim_C8_witness :
    extract_question_text [] (fun pr => query_ollama ((fun _ => none) pr)) "block text".data =
      placeholder "block text".data ∧
    extract_question_text [] (fun pr => query_ollama ((fun _ => none) pr)) "block text".data ≠ [] :=
  ⟨(claim_C8 [] (fun _ => none) "block text".data).2 rfl rfl,
   (claim_C8 [] (fun _ => none) "block text".data).1⟩

/-- C10.  Whenever the vision-mode collaborator call fails (image cannot
be read or encoded, request exception, or non-200 response),
`send_image_to_ollama` returns `simulate_solution question_number`: one of
exactly three canned solution texts, selected deterministically as
`question_number % 3` (each with the horizontal-rule suffix appended). -/
theorem claim_C10 (question_number : Nat) (encoded : Option String)
    (resp : Option (Nat × Option String)) :
    (solutionsList question_number).length = 3 ∧
    simulate_solution question_number =
      (solutionsList question_number).getD (question_number % 3) ""
        ++ "\\n\\n\\hrule\\n\\vspace\x7b1em\x7d\\n" ∧
    ((encoded = none ∨ resp = none ∨ ∀ st p, resp = some (st, p) → st ≠ 200) →
      send_image_to_ollama encoded resp question_number = simulate_solution question_number) := by
  refine ⟨rfl, rfl, ?_⟩
  intro h
  rcases h with rfl | rfl | hne
  · rfl
  · cases encoded <;> rfl
  · cases encoded with
    | none => rfl
    | some e =>
      cases resp with
      | none => rfl
      | some sp =>
        obtain ⟨st, p⟩ := sp
        have : st ≠ 200 := hne st p rfl
        simp [send_image_to_ollama, this]

/-- Witness for C10: an unreadable image at question number 7 yields the
canned solution of index 7 % 3 = 1. -/
theorem claim_C10_witness :
    send_image_to_ollama none none 7 = simulate_solution 7 ∧
    simulate_solution 7 = cannedSol1 7 ++ "\\n\\n\\hrule\\n\\vspace\x7b1em\x7d\\n" :=
  ⟨(claim_C10 7 none none).2.2 (Or.inl rfl), rfl⟩

/-! ### The crop rectangle (C2) -/

/-- Counterexample to C2 as stated: with start box `y0=80, y1=90` and end
box `y0=95` on a page of height 100 (all boxes inside the page), the
computed bottom is `max (90+50) (95-15) = 140`, which exceeds the page
height. -/
theorem claim_C2_counterexample :
    (clip_rect ⟨0, 0, 612, 100⟩ (some ⟨0, 80, 612, 90⟩) (some ⟨0, 95, 612, 100⟩)).y1 = 140 ∧
    (Rect.height ⟨0, 0, 612, 100⟩ <
      (clip_rect ⟨0, 0, 612, 100⟩ (some ⟨0, 80, 612, 90⟩) (some ⟨0, 95, 612, 100⟩)).y1) ∧
    (0 : ℚ) ≤ 80 ∧ (80 : ℚ) ≤ 90 ∧ (90 : ℚ) ≤ Rect.height ⟨0, 0, 612, 100⟩ ∧
    (0 : ℚ) ≤ 95 ∧ (95 : ℚ) ≤ 100 ∧ (100 : ℚ) ≤ Rect.height ⟨0, 0, 612, 100⟩ := by
  refine ⟨?_, ?_, by norm_num, by norm_num, ?_, by norm_num, by norm_num, ?_⟩ <;>
    simp [clip_rect, Rect.height] <;> norm_num

/-- C2, amended.  For boxes lying inside the page, the crop rectangle has
non-negative height; the top is `start.y0 - 20` clamped to `≥ 0`; with no
start box the whole page is cropped; with no end box the bottom is
`min(page height, start.y1 + 300)` and in that case (only) it never
exceeds the page height; with an end box the bottom is
`max(start.y1 + 50, end.y0 - 15)`, which can exceed the page height. -/
theorem claim_C2 (pr : Rect) (qb eb : Option Rect)
    (hpr : 0 ≤ pr.height)
    (hq : ∀ r, qb = some r → 0 ≤ r.y0 ∧ r.y0 ≤ r.y1 ∧ r.y1 ≤ pr.height) :
    (clip_rect pr qb eb).y0 ≤ (clip_rect pr qb eb).y1 ∧
    (qb = none → clip_rect pr qb eb = ⟨0, 0, pr.width, pr.height⟩) ∧
    (∀ r, qb = some r → (clip_rect pr qb eb).y0 = max 0 (r.y0 - 20)) ∧
    (∀ r, qb = some r → eb = none →
      (clip_rect pr qb eb).y1 = min pr.height (r.y1 + 300) ∧
      (clip_rect pr qb eb).y1 ≤ pr.height) ∧
    (∀ r s, qb = some r → eb = some s →
      (clip_rect pr qb eb).y1 = max (r.y1 + 50) (s.y0 - 15)) := by
  cases qb with
  | none =>
    refine ⟨?_, fun _ => rfl, ?_, ?_, ?_⟩
    · simpa [clip_rect] using hpr
    · intro r hr
      exact absurd hr (by simp)
    · intro r hr
      exact absurd hr (by simp)
    · intro r s hr
      exact absurd hr (by simp)
  | some q =>
    obtain ⟨h0, h1, h2⟩ := hq q rfl
    cases eb with
    | none =>
      refine ⟨?_, by simp, ?_, ?_, ?_⟩
      · simp only [clip_rect]
        refine le_min (max_le hpr (by linarith)) (max_le (by linarith) (by linarith))
      · intro r hr
        injection hr with hr
        subst hr
        rfl
      · intro r hr _
        injection hr with hr
        subst hr
        exact ⟨rfl, by simp only [clip_rect]; exact min_le_left _ _⟩
      · intro r s _ hs
        exact absurd hs (by simp)
    | some e =>
      refine ⟨?_, by simp, ?_, ?_, ?_⟩
      · simp only [clip_rect]
        refine le_max_of_le_left (max_le (by linarith) (by linarith))
      · intro r hr
        injection hr with hr
        subst hr
        rfl
      · intro r hr hs
        exact absurd hs (by simp)
      · intro r s hr hs
        injection hr with hr
        injection hs with hs
        subst hr
        subst hs
        rfl

/-- Witness for C2, amended, at a concrete page and in-page boxes. -/
theorem claim_C2_witness :
    (clip_rect ⟨0, 0, 612, 792⟩ (some ⟨0, 100, 612, 120⟩) none).y0 ≤
      (clip_rect ⟨0, 0, 612, 792⟩ (some ⟨0, 100, 612, 120⟩) none).y1 ∧
    (clip_rect ⟨0, 0, 612, 792⟩ (some ⟨0, 100, 612, 120⟩) none).y1 ≤
      Rect.height ⟨0, 0, 612, 792⟩ := by
  have h := claim_C2 ⟨0, 0, 612, 792⟩ (some ⟨0, 100, 612, 120⟩) none
    (by norm_num [Rect.height])
    (by
      intro r hr
      injection hr with hr
      subst hr
      refine ⟨by norm_num, by norm_num, by norm_num [Rect.height]⟩)
  exact ⟨h.1, ((h.2.2.2.1 ⟨0, 100, 612, 120⟩ rfl rfl).2)⟩

/-! ### Page resolution and the per-question loop (C7) -/

theorem findPage_none : ∀ (pages : List Page) (s : List Char) (k : Nat),
    (∀ p ∈ pages, p.search s = []) → findPage pages s k = none
  | [], _, _, _ => rfl
  | p :: ps, s, k, h => by
    have hp := h p (List.mem_cons_self p ps)
    simp only [findPage, if_pos hp]
    exact findPage_none ps s (k + 1) (fun q hq => h q (List.mem_cons_of_mem p hq))

theorem findPage_spec : ∀ (pages : List Page) (s : List Char) (k0 k : Nat) (page : Page),
    findPage pages s k0 = some (k, page) →
    ∃ j, k = k0 + j ∧ pages.get? j = some page ∧ page.search s ≠ [] ∧
      ∀ i, i < j → ∀ q, pages.get? i = some q → q.search s = []
  | [], s, k0, k, page, h => by simp [findPage] at h
  | p :: ps, s, k0, k, page, h => by
    by_cases hp : p.search s = []
    · simp only [findPage, if_pos hp] at h
      obtain ⟨j, rfl, hget, hne, hlt⟩ := findPage_spec ps s (k0 + 1) k page h
      refine ⟨j + 1, by omega, by simpa using hget, hne, ?_⟩
      intro i hi q hq
      cases i with
      | zero =>
        rw [List.get?_cons_zero] at hq
        injection hq with hq
        subst hq
        exact hp
      | succ n =>
        rw [List.get?_cons_succ] at hq
        exact hlt n (by omega) q hq
    · simp only [findPage, if_neg hp, Option.some.injEq, Prod.mk.injEq] at h
      obtain ⟨rfl, rfl⟩ := h
      exact ⟨0, by omega, rfl, hp, fun i hi => absurd hi (Nat.not_lt_zero i)⟩

theorem processBlock_none (od : List Char) (pages : List Page) (qbs : List QBlock)
    (i : Nat) (qd : QBlock)
    (h : ∀ p ∈ pages, p.search (searchTextQN qd.question_number) = []) :
    processBlock od pages qbs i qd = none := by
  simp only [processBlock, findPage_none pages _ 0 h]

theorem processLoop_skip (od : List Char) (pages : List Page) (qbs : List QBlock)
    (i : Nat) (qd : QBlock) (rest : List QBlock)
    (h : processBlock od pages qbs i qd = none) :
    processLoop od pages qbs i (qd :: rest) = processLoop od pages qbs (i + 1) rest := by
  simp only [processLoop, h]

theorem processLoop_length : ∀ (od : List Char) (pages : List Page) (qbs : List QBlock)
    (i : Nat) (l : List QBlock), (processLoop od pages qbs i l).length ≤ l.length
  | _, _, _, _, [] => Nat.le_refl 0
  | od, pages, qbs, i, qd :: rest => by
    simp only [processLoop]
    cases processBlock od pages qbs i qd with
    | some e =>
      simpa using processLoop_length od pages qbs (i + 1) rest
    | none =>
      exact le_trans (processLoop_length od pages qbs (i + 1) rest) (by simp)

theorem process_pdf_extracted_le (pats : List Matcher) (env : PdfEnv) (od : List Char) :
    (process_pdf pats env od).1.questions_extracted ≤
      (process_pdf pats env od).1.questions_found := by
  unfold process_pdf
  split
  · simp
  · split
    · simp
    · dsimp only
      split
      · simp
      · simpa using processLoop_length od _ _ 0 _

/-- C7.  For every segmented block, `process_pdf` assigns it the first
page, scanning in ascending order, whose literal search for
`Question Number : {sequence_number}` is non-empty; if no page matches,
the block is skipped (`processBlock` yields `none`) and the loop simply
continues with the next block, so for every run `questions_extracted` is
at most `questions_found` and a skipped block contributes no image file. -/
theorem claim_C7 :
    (∀ (od : List Char) (pages : List Page) (qbs : List QBlock) (i : Nat) (qd : QBlock),
      (∀ p ∈ pages, p.search (searchTextQN qd.question_number) = []) →
      processBlock od pages qbs i qd = none) ∧
    (∀ (pages : List Page) (s : List Char) (k : Nat) (page : Page),
      findPage pages s 0 = some (k, page) →
      pages.get? k = some page ∧ page.search s ≠ [] ∧
        ∀ i, i < k → ∀ q, pages.get? i = some q → q.search s = []) ∧
    (∀ (od : List Char) (pages : List Page) (qbs : List QBlock) (i : Nat)
        (qd : QBlock) (rest : List QBlock),
      processBlock od pages qbs i qd = none →
      processLoop od pages qbs i (qd :: rest) = processLoop od pages qbs (i + 1) rest) ∧
    (∀ (pats : List Matcher) (env : PdfEnv) (od : List Char),
      (process_pdf pats env od).1.questions_extracted ≤
        (process_pdf pats env od).1.questions_found) := by
  refine ⟨processBlock_none, ?_, processLoop_skip, process_pdf_extracted_le⟩
  intro pages s k page h
  obtain ⟨j, hk, hget, hne, hlt⟩ := findPage_spec pages s 0 k page h
  have hj : k = j := by omega
  subst hj
  exact ⟨hget, hne, hlt⟩

/-- Witness for C7: a block whose delimiter text no page search matches is
skipped and contributes nothing, and on the page list `[pageA, pageB]` the
first matching page (index 1) is selected; the count inequality holds on a
concrete run. -/
theorem claim_C7_witness :
    processBlock "temp".data [pageA] [] 0 qd0 = none ∧
    (processLoop "temp".data [pageA] [qd0] 0 [qd0] = processLoop "temp".data [pageA] [qd0] 1 []) ∧
    ([pageA, pageB].get? 1 = some pageB ∧ pageB.search "x".data ≠ []) ∧
    (process_pdf [] envNoQ "temp".data).1.questions_extracted ≤
      (process_pdf [] envNoQ "temp".data).1.questions_found := by
  have h1 := claim_C7.1 "temp".data [pageA] [] 0 qd0 (by
    intro p hp
    rcases List.mem_singleton.mp hp with rfl
    rfl)
  have h2 := claim_C7.2.1 [pageA, pageB] "x".data 1 pageB rfl
  refine ⟨h1, ?_, ⟨h2.1, h2.2.1⟩, claim_C7.2.2.2 [] envNoQ "temp".data⟩
  exact claim_C7.2.2.1 "temp".data [pageA] [qd0] 0 qd0 [] (by
    apply claim_C7.1
    intro p hp
    rcases List.mem_singleton.mp hp with rfl
    rfl)

/-! ### Lemmas about the literal and class matchers -/

theorem matchLitCI_append : ∀ (p s a r : List Char), matchLitCI p s = some (a, r) → a ++ r = s
  | [], s, a, r, h => by
    simp only [matchLitCI, Option.some.injEq, Prod.mk.injEq] at h
    obtain ⟨rfl, rfl⟩ := h
    rfl
  | p :: ps, [], a, r, h => by simp [matchLitCI] at h
  | p :: ps, c :: cs, a, r, h => by
    simp only [matchLitCI] at h
    by_cases hp : p = lowerc c
    · rw [if_pos hp] at h
      cases hm : matchLitCI ps cs with
      | none => rw [hm] at h; exact absurd h (by simp)
      | some x =>
        obtain ⟨a1, r1⟩ := x
        rw [hm] at h
        simp only [Option.some.injEq, Prod.mk.injEq] at h
        obtain ⟨rfl, rfl⟩ := h
        have ih := matchLitCI_append ps cs _ _ hm
        simp [ih]
    · rw [if_neg hp] at h
      exact absurd h (by simp)

theorem matchLitCI_map : ∀ (p s a r : List Char), matchLitCI p s = some (a, r) →
    a.map lowerc = p
  | [], s, a, r, h => by
    simp only [matchLitCI, Option.some.injEq, Prod.mk.injEq] at h
    obtain ⟨rfl, rfl⟩ := h
    rfl
  | p :: ps, [], a, r, h => by simp [matchLitCI] at h
  | p :: ps, c :: cs, a, r, h => by
    simp only [matchLitCI] at h
    by_cases hp : p = lowerc c
    · rw [if_pos hp] at h
      cases hm : matchLitCI ps cs with
      | none => rw [hm] at h; exact absurd h (by simp)
      | some x =>
        obtain ⟨a1, r1⟩ := x
        rw [hm] at h
        simp only [Option.some.injEq, Prod.mk.injEq] at h
        obtain ⟨rfl, rfl⟩ := h
        have ih := matchLitCI_map ps cs _ _ hm
        simp [ih, hp]
    · rw [if_neg hp] at h
      exact absurd h (by simp)

theorem matchLitCI_of_map : ∀ (a u : List Char), matchLitCI (a.map lowerc) (a ++ u) = some (a, u)
  | [], u => rfl
  | c :: a1, u => by
    have ih := matchLitCI_of_map a1 u
    simp [matchLitCI, ih]

theorem matchLitCI_head {p : List Char} {c : Char} {cs : List Char}
    {x : List Char × List Char} (hp : p ≠ []) (h : matchLitCI p (c :: cs) = some x) :
    p.head? = some (lowerc c) := by
  cases p with
  | nil => exact absurd rfl hp
  | cons q qs =>
    simp only [matchLitCI] at h
    by_cases hq : q = lowerc c
    · simp [hq]
    · rw [if_neg hq] at h
      exact absurd h (by simp)

theorem matchLitCI_split : ∀ (p1 p2 s : List Char), (matchLitCI (p1 ++ p2) s).isSome →
    ∃ a1 r1, matchLitCI p1 s = some (a1, r1) ∧ (matchLitCI p2 r1).isSome
  | [], p2, s, h => ⟨[], s, rfl, by simpa using h⟩
  | p :: p1, p2, [], h => by simp [matchLitCI] at h
  | p :: p1, p2, c :: cs, h => by
    simp only [List.cons_append, matchLitCI, List.append_eq] at h
    by_cases hp : p = lowerc c
    · rw [if_pos hp] at h
      cases hm : matchLitCI (p1 ++ p2) cs with
      | none => rw [hm] at h; simp at h
      | some x =>
        obtain ⟨j, r1, hj, h2⟩ := matchLitCI_split p1 p2 cs (by rw [hm]; rfl)
        refine ⟨c :: j, r1, ?_, h2⟩
        simp only [matchLitCI, if_pos hp, hj]
    · rw [if_neg hp] at h
      simp at h

theorem spanP_append (p : Char → Bool) (s : List Char) : (spanP p s).1 ++ (spanP p s).2 = s :=
  List.takeWhile_append_dropWhile p s

theorem spanP_all (p : Char → Bool) (s : List Char) : ∀ c ∈ (spanP p s).1, p c = true :=
  fun _ hc => List.mem_takeWhile_imp hc

theorem spanP_head : ∀ (p : Char → Bool) (s : List Char) (c : Char),
    ((spanP p s).2).head? = some c → p c = false
  | p, [], c, h => by simp [spanP] at h
  | p, d :: t, c, h => by
    simp only [spanP, List.dropWhile] at h
    by_cases hd : p d
    · rw [hd] at h
      exact spanP_head p t c (by simpa [spanP] using h)
    · rw [Bool.not_eq_true] at hd
      rw [hd] at h
      simp only [List.head?_cons, Option.some.injEq] at h
      subst h
      exact hd

theorem spanP_eq : ∀ (p : Char → Bool) (a u : List Char), (∀ c ∈ a, p c = true) →
    (∀ c, u.head? = some c → p c = false) → spanP p (a ++ u) = (a, u)
  | p, [], u, _, hu => by
    cases u with
    | nil => rfl
    | cons c t =>
      have hc := hu c rfl
      simp [spanP, List.takeWhile, List.dropWhile, hc]
  | p, c :: a1, u, ha, hu => by
    have hc := ha c (List.mem_cons_self c a1)
    have ih := spanP_eq p a1 u (fun d hd => ha d (List.mem_cons_of_mem c hd)) hu
    have ih1 : List.takeWhile p (a1 ++ u) = a1 := congrArg Prod.fst ih
    have ih2 : List.dropWhile p (a1 ++ u) = u := congrArg Prod.snd ih
    simp [spanP, List.takeWhile_cons, List.dropWhile_cons, hc, ih1, ih2]

/-! ### Shape of the delimiter head and occurrence counting -/

theorem matchDelimHead_eq : ∀ {s h r : List Char}, matchDelimHead s = some (h, r) →
    h ++ r = s ∧ headShape h := by
  intro s h r hm
  unfold matchDelimHead at hm
  cases hlit : matchLitCI qnumLit s with
  | none => rw [hlit] at hm; exact absurd hm (by simp)
  | some ar =>
    obtain ⟨a, r1⟩ := ar
    rw [hlit] at hm
    dsimp only at hm
    rcases hsp : spanP isPySpace r1 with ⟨sp, rest⟩
    rw [hsp] at hm
    cases rest with
    | nil => exact absurd hm (by simp)
    | cons c r2 =>
      dsimp only at hm
      by_cases hc : c = ':'
      · rw [if_pos hc] at hm
        simp only [Option.some.injEq, Prod.mk.injEq] at hm
        obtain ⟨rfl, rfl⟩ := hm
        subst hc
        constructor
        · have h1 := matchLitCI_append _ _ _ _ hlit
          have h2 : sp ++ (':' :: r2) = r1 := by
            have h3 := spanP_append isPySpace r1
            rw [hsp] at h3
            exact h3
          calc (a ++ sp ++ [':']) ++ r2 = a ++ (sp ++ (':' :: r2)) := by simp
            _ = a ++ r1 := by rw [h2]
            _ = s := h1
        · refine ⟨a, sp, rfl, matchLitCI_map _ _ _ _ hlit, ?_⟩
          intro d hd
          have hmem : d ∈ (spanP isPySpace r1).1 := by rw [hsp]; exact hd
          exact spanP_all _ _ _ hmem
      · rw [if_neg hc] at hm
        exact absurd hm (by simp)

theorem matchDelimHead_of_shape {h : List Char} (hs : headShape h) (u : List Char) :
    matchDelimHead (h ++ u) = some (h, u) := by
  obtain ⟨a, sp, rfl, hmap, hsp⟩ := hs
  unfold matchDelimHead
  have h1 : matchLitCI qnumLit ((a ++ sp ++ [':']) ++ u) = some (a, sp ++ (':' :: u)) := by
    rw [show (a ++ sp ++ [':']) ++ u = a ++ (sp ++ (':' :: u)) by simp, ← hmap]
    exact matchLitCI_of_map a _
  rw [h1]
  dsimp only
  have h2 : spanP isPySpace (sp ++ (':' :: u)) = (sp, ':' :: u) := by
    refine spanP_eq _ sp (':' :: u) hsp ?_
    intro d hd
    simp only [List.head?_cons, Option.some.injEq] at hd
    subst hd
    rfl
  rw [h2]
  dsimp only
  simp

theorem matchDelimHead_first {c : Char} {t : List Char} {x : List Char × List Char}
    (h : matchDelimHead (c :: t) = some x) : lowerc c = 'q' := by
  unfold matchDelimHead at h
  cases hlit : matchLitCI qnumLit (c :: t) with
  | none => rw [hlit] at h; simp at h
  | some ar =>
    have hq := matchLitCI_head (p := qnumLit) (by decide) hlit
    have h2 : some 'q' = some (lowerc c) := by rw [← hq]; rfl
    injection h2 with h2
    exact h2.symm

theorem isPySpace_ne_q {c : Char} (h : isPySpace c = true) : lowerc c ≠ 'q' := by
  simp only [isPySpace, Bool.or_eq_true, beq_iff_eq] at h
  rcases h with ((((rfl | rfl) | rfl) | rfl) | rfl) | rfl <;> decide

theorem isDig_ne_q {c : Char} (h : isDig c = true) : lowerc c ≠ 'q' := by
  simp only [isDig, Bool.and_eq_true, decide_eq_true_eq] at h
  intro hq
  have hl : lowerc c = c := by
    unfold lowerc
    rw [if_neg (by omega)]
  rw [hl] at hq
  subst hq
  exact absurd h (by decide)

theorem headShape_cons {h : List Char} (hs : headShape h) :
    ∃ c h2, h = c :: h2 ∧ lowerc c = 'q' ∧ ∀ d ∈ h2, lowerc d ≠ 'q' := by
  obtain ⟨a, sp, rfl, hmap, hsp⟩ := hs
  cases a with
  | nil => simp [qnumLit] at hmap
  | cons c a1 =>
    refine ⟨c, a1 ++ sp ++ [':'], by simp, ?_, ?_⟩
    · have h9 := congrArg List.head? hmap
      rw [show qnumLit.head? = some 'q' from rfl] at h9
      simpa using h9
    · intro d hd
      simp only [List.append_assoc, List.mem_append, List.mem_singleton] at hd
      rcases hd with hd | hd | rfl
      · have hm1 : a1.map lowerc = qnumLit.tail := by
          simpa using congrArg List.tail hmap
        have hmem : lowerc d ∈ qnumLit.tail := hm1 ▸ List.mem_map_of_mem lowerc hd
        intro hq
        rw [hq] at hmem
        revert hmem
        decide
      · exact isPySpace_ne_q (hsp d hd)
      · decide

theorem noQ_delimCount : ∀ (a u : List Char), (∀ c ∈ a, lowerc c ≠ 'q') →
    delimCount (a ++ u) = delimCount u
  | [], u, _ => rfl
  | c :: a1, u, h => by
    simp only [List.cons_append, delimCount, List.append_eq]
    have hc : matchDelimHead (c :: (a1 ++ u)) = none := by
      cases hm : matchDelimHead (c :: (a1 ++ u)) with
      | none => rfl
      | some x => exact absurd (matchDelimHead_first hm) (h c (List.mem_cons_self c a1))
    simp only [hc, Option.isSome_none, Bool.false_eq_true, if_false]
    rw [noQ_delimCount a1 u (fun d hd => h d (List.mem_cons_of_mem c hd))]
    exact Nat.zero_add _

theorem delimCount_head {s h r : List Char} (hm : matchDelimHead s = some (h, r)) :
    delimCount s = 1 + delimCount r := by
  obtain ⟨hap, hsh⟩ := matchDelimHead_eq hm
  obtain ⟨c, h2, rfl, _, hnq⟩ := headShape_cons hsh
  subst hap
  rw [List.cons_append] at hm
  rw [List.cons_append, delimCount, hm]
  simp only [Option.isSome_some, if_true]
  rw [noQ_delimCount h2 r hnq]

/-! ### Structure of the block scan -/

theorem splitAtDelim_append : ∀ (s : List Char), (splitAtDelim s).1 ++ (splitAtDelim s).2 = s
  | [] => rfl
  | c :: t => by
    simp only [splitAtDelim]
    by_cases h : (matchDelimHead (c :: t)).isSome
    · rw [if_pos h]
      rfl
    · rw [if_neg h]
      simp only [List.cons_append, List.cons.injEq, true_and]
      exact splitAtDelim_append t

theorem splitAtDelim_count : ∀ (s : List Char), delimCount ((splitAtDelim s).2) = delimCount s
  | [] => rfl
  | c :: t => by
    simp only [splitAtDelim]
    by_cases h : (matchDelimHead (c :: t)).isSome
    · rw [if_pos h]
    · rw [if_neg h]
      simp only [delimCount]
      rw [splitAtDelim_count t]
      simp [h]

theorem splitAtDelim_snd_cases : ∀ (s : List Char),
    (splitAtDelim s).2 = [] ∨ (matchDelimHead ((splitAtDelim s).2)).isSome
  | [] => Or.inl rfl
  | c :: t => by
    simp only [splitAtDelim]
    by_cases h : (matchDelimHead (c :: t)).isSome
    · rw [if_pos h]
      exact Or.inr h
    · rw [if_neg h]
      exact splitAtDelim_snd_cases t

theorem splitAtDelim_snd_length : ∀ (s : List Char), ((splitAtDelim s).2).length ≤ s.length
  | [] => Nat.le_refl 0
  | c :: t => by
    simp only [splitAtDelim]
    by_cases h : (matchDelimHead (c :: t)).isSome
    · rw [if_pos h]
    · rw [if_neg h]
      exact le_trans (splitAtDelim_snd_length t) (by simp)

theorem splitAtDelim_delim {s : List Char} (h : (matchDelimHead s).isSome) :
    splitAtDelim s = ([], s) := by
  cases s with
  | nil => exact absurd h (by decide)
  | cons c t => simp [splitAtDelim, h]

theorem scanStop_append : ∀ (s : List Char), (scanStop s).1 ++ (scanStop s).2 = s
  | [] => rfl
  | c :: t => by
    simp only [scanStop]
    by_cases h : (matchDelimHead (c :: t)).isSome
    · rw [if_pos h]
      rfl
    · rw [if_neg h]
      by_cases h2 : c = '\n' ∧ t = []
      · rw [if_pos h2]
        simp [h2.2]
      · rw [if_neg h2]
        simp only [List.cons_append, List.cons.injEq, true_and]
        exact scanStop_append t

theorem scanStop_count : ∀ (s : List Char), delimCount ((scanStop s).2) = delimCount s
  | [] => rfl
  | c :: t => by
    simp only [scanStop]
    by_cases h : (matchDelimHead (c :: t)).isSome
    · rw [if_pos h]
    · rw [if_neg h]
      by_cases h2 : c = '\n' ∧ t = []
      · rw [if_pos h2]
        obtain ⟨rfl, rfl⟩ := h2
        rfl
      · rw [if_neg h2]
        simp only [delimCount]
        rw [scanStop_count t]
        simp [h]

theorem scanStop_cases : ∀ (s : List Char),
    (scanStop s).2 = [] ∨ (scanStop s).2 = ['\n'] ∨ (matchDelimHead ((scanStop s).2)).isSome
  | [] => Or.inl rfl
  | c :: t => by
    simp only [scanStop]
    by_cases h : (matchDelimHead (c :: t)).isSome
    · rw [if_pos h]
      exact Or.inr (Or.inr h)
    · rw [if_neg h]
      by_cases h2 : c = '\n' ∧ t = []
      · rw [if_pos h2]
        exact Or.inr (Or.inl (by simp [h2.1]))
      · rw [if_neg h2]
        exact scanStop_cases t

theorem takeBlock_eq {s b rest : List Char} (h : takeBlock s = some (b, rest)) :
    b ++ rest = s ∧ b ≠ [] := by
  unfold takeBlock at h
  cases hm : matchDelimHead s with
  | none => rw [hm] at h; exact absurd h (by simp)
  | some hr =>
    obtain ⟨hd, r⟩ := hr
    rw [hm] at h
    simp only [Option.some.injEq, Prod.mk.injEq] at h
    obtain ⟨rfl, rfl⟩ := h
    obtain ⟨hap, hsh⟩ := matchDelimHead_eq hm
    constructor
    · rw [List.append_assoc, scanStop_append r, hap]
    · obtain ⟨c, h2, rfl, _, _⟩ := headShape_cons hsh
      simp

theorem takeBlock_count {s b rest : List Char} (h : takeBlock s = some (b, rest)) :
    delimCount s = 1 + delimCount rest := by
  unfold takeBlock at h
  cases hm : matchDelimHead s with
  | none => rw [hm] at h; exact absurd h (by simp)
  | some hr =>
    obtain ⟨hd, r⟩ := hr
    rw [hm] at h
    simp only [Option.some.injEq, Prod.mk.injEq] at h
    obtain ⟨rfl, rfl⟩ := h
    rw [delimCount_head hm, scanStop_count r]

theorem takeBlock_none {s : List Char} (h : takeBlock s = none) : matchDelimHead s = none := by
  unfold takeBlock at h
  cases hm : matchDelimHead s with
  | none => rfl
  | some hr => rw [hm] at h; exact absurd h (by simp)

theorem takeBlock_rest_lt {s b rest : List Char} (h : takeBlock s = some (b, rest)) :
    rest.length < s.length := by
  obtain ⟨hap, hne⟩ := takeBlock_eq h
  have h1 : b.length + rest.length = s.length := by
    rw [← hap, List.length_append]
  have h2 : 0 < b.length := List.length_pos.mpr hne
  omega

theorem takeBlock_rest_cases {s b rest : List Char} (h : takeBlock s = some (b, rest)) :
    rest = [] ∨ (rest = ['\n'] ∧ s.getLast? = some '\n') ∨ (matchDelimHead rest).isSome := by
  unfold takeBlock at h
  cases hm : matchDelimHead s with
  | none => rw [hm] at h; exact absurd h (by simp)
  | some hr =>
    obtain ⟨hd, r⟩ := hr
    rw [hm] at h
    simp only [Option.some.injEq, Prod.mk.injEq] at h
    obtain ⟨rfl, rfl⟩ := h
    rcases scanStop_cases r with h1 | h1 | h1
    · exact Or.inl h1
    · refine Or.inr (Or.inl ⟨h1, ?_⟩)
      obtain ⟨hap, _⟩ := matchDelimHead_eq hm
      have h2 : (scanStop r).1 ++ ['\n'] = r := by rw [← h1]; exact scanStop_append r
      rw [← hap, ← h2]
      rw [← List.append_assoc]
      exact List.getLast?_concat _
    · exact Or.inr (Or.inr h1)

theorem rawBlocksAux_nil (fuel : Nat) : rawBlocksAux fuel [] = [] := by
  cases fuel <;> rfl

theorem rawBlocksAux_length : ∀ (fuel : Nat) (s : List Char), s.length ≤ fuel →
    (rawBlocksAux fuel s).length = delimCount s
  | 0, s, h => by
    have hs : s = [] := List.length_eq_zero.mp (Nat.le_zero.mp h)
    subst hs
    rfl
  | fuel + 1, s, h => by
    simp only [rawBlocksAux]
    cases htb : takeBlock (splitAtDelim s).2 with
    | none =>
      rcases splitAtDelim_snd_cases s with h1 | h1
      · have h2 : delimCount s = 0 := by
          rw [← splitAtDelim_count s, h1]
          rfl
        simp [h2]
      · rw [takeBlock_none htb] at h1
        simp at h1
    | some br =>
      obtain ⟨b, rest⟩ := br
      have hlt := takeBlock_rest_lt htb
      have hle : rest.length ≤ fuel := by
        have h2 := splitAtDelim_snd_length s
        omega
      simp only [List.length_cons]
      rw [rawBlocksAux_length fuel rest hle]
      rw [← splitAtDelim_count s, takeBlock_count htb]
      omega

theorem rawBlocks_length (s : List Char) : (rawBlocks s).length = delimCount s :=
  rawBlocksAux_length s.length s (Nat.le_refl _)

theorem rawBlocksAux_partition : ∀ (fuel : Nat) (s : List Char), s.length ≤ fuel →
    s.getLast? ≠ some '\n' →
    (splitAtDelim s).1 ++ (rawBlocksAux fuel s).flatten = s
  | 0, s, h, _ => by
    have hs : s = [] := List.length_eq_zero.mp (Nat.le_zero.mp h)
    subst hs
    rfl
  | fuel + 1, s, h, hlast => by
    simp only [rawBlocksAux]
    cases htb : takeBlock (splitAtDelim s).2 with
    | none =>
      rcases splitAtDelim_snd_cases s with h1 | h1
      · have h2 := splitAtDelim_append s
        rw [h1] at h2
        simpa using h2
      · rw [takeBlock_none htb] at h1
        simp at h1
    | some br =>
      obtain ⟨b, rest⟩ := br
      obtain ⟨hbr, _⟩ := takeBlock_eq htb
      have hsa := splitAtDelim_append s
      have hlt := takeBlock_rest_lt htb
      have hle : rest.length ≤ fuel := by
        have h2 := splitAtDelim_snd_length s
        omega
      simp only [List.flatten_cons]
      rcases takeBlock_rest_cases htb with hr | hr | hr
      · subst hr
        rw [rawBlocksAux_nil fuel]
        simp only [List.flatten_nil, List.append_nil]
        simp only [List.append_nil] at hbr
        rw [hbr]
        exact hsa
      · obtain ⟨hr1, _⟩ := hr
        have hsnd_ne : (splitAtDelim s).2 ≠ [] := by
          intro h0
          rw [h0] at hbr
          subst hr1
          exact absurd (congrArg List.length hbr) (by simp)
        have hlast2 : s.getLast? = some '\n' := by
          rw [← hsa, List.getLast?_append_of_ne_nil _ hsnd_ne, ← hbr, hr1]
          rw [List.getLast?_append_of_ne_nil _ (by simp)]
          rfl
        exact absurd hlast2 hlast
      · have hrne : rest ≠ [] := by
          intro h0
          rw [h0] at hr
          exact absurd hr (by decide)
        have hs_eq : s.getLast? = rest.getLast? := by
          rw [← hsa, ← hbr]
          rw [List.getLast?_append_of_ne_nil _ (fun h0 => hrne (List.append_eq_nil.mp h0).2)]
          exact List.getLast?_append_of_ne_nil _ hrne
        rw [hs_eq] at hlast
        have ih := rawBlocksAux_partition fuel rest hle hlast
        rw [splitAtDelim_delim hr] at ih
        simp only [List.nil_append] at ih
        rw [ih, hbr]
        exact hsa

/-! ### Shape of the full delimiter match -/

theorem isDig_not_space {c : Char} (h : isDig c = true) : isPySpace c = false := by
  cases hsp : isPySpace c
  · rfl
  · exfalso
    simp only [isPySpace, Bool.or_eq_true, beq_iff_eq] at hsp
    rcases hsp with ((((rfl | rfl) | rfl) | rfl) | rfl) | rfl <;> exact absurd h (by decide)

theorem isSpace_not_dig {c : Char} (h : isPySpace c = true) : isDig c = false := by
  simp only [isPySpace, Bool.or_eq_true, beq_iff_eq] at h
  rcases h with ((((rfl | rfl) | rfl) | rfl) | rfl) | rfl <;> decide

theorem head_all_append {P : Char → Bool} {a : List Char} (b : List Char)
    (ha : ∀ c ∈ a, P c = true) (hne : a ≠ []) :
    ∀ c, ((a ++ b).head? = some c) → P c = true := by
  cases a with
  | nil => exact absurd rfl hne
  | cons d t =>
    intro c hc
    simp only [List.cons_append, List.head?_cons, Option.some.injEq] at hc
    subst hc
    exact ha _ (List.mem_cons_self _ t)

theorem matchDelimFull_eq {s : List Char} {n : Nat} {d2 con rest : List Char}
    (h : matchDelimFull s = some (n, d2, con, rest)) :
    con ++ rest = s ∧ fullShape n d2 con ∧ (∀ c, rest.head? = some c → isDig c = false) := by
  unfold matchDelimFull at h
  cases hm : matchDelimHead s with
  | none => rw [hm] at h; exact absurd h (by simp)
  | some hr1 =>
    obtain ⟨h1, r1⟩ := hr1
    rw [hm] at h
    dsimp only at h
    rcases hp1 : spanP isPySpace r1 with ⟨sp1, q1⟩
    rw [hp1] at h
    dsimp only at h
    rcases hp2 : spanP isDig q1 with ⟨d1, q2⟩
    rw [hp2] at h
    dsimp only at h
    by_cases hd1 : d1 = []
    · rw [if_pos hd1] at h; exact absurd h (by simp)
    rw [if_neg hd1] at h
    rcases hp3 : spanP isPySpace q2 with ⟨sp2, q3⟩
    rw [hp3] at h
    dsimp only at h
    by_cases hsp2 : sp2 = []
    · rw [if_pos hsp2] at h; exact absurd h (by simp)
    rw [if_neg hsp2] at h
    cases hlit2 : matchLitCI qidLit q3 with
    | none => rw [hlit2] at h; exact absurd h (by simp)
    | some hr2 =>
      obtain ⟨h2, r4⟩ := hr2
      rw [hlit2] at h
      dsimp only at h
      rcases hp4 : spanP isPySpace r4 with ⟨sp3, q4⟩
      rw [hp4] at h
      dsimp only at h
      cases q4 with
      | nil => exact absurd h (by simp)
      | cons c5 r6 =>
        dsimp only at h
        by_cases hc5 : c5 = ':'
        · rw [if_pos hc5] at h
          rcases hp5 : spanP isPySpace r6 with ⟨sp4, q5⟩
          rw [hp5] at h
          dsimp only at h
          rcases hp6 : spanP isDig q5 with ⟨d2x, q6⟩
          rw [hp6] at h
          dsimp only at h
          by_cases hd2 : d2x = []
          · rw [if_pos hd2] at h; exact absurd h (by simp)
          rw [if_neg hd2] at h
          simp only [Option.some.injEq, Prod.mk.injEq] at h
          obtain ⟨rfl, rfl, rfl, rfl⟩ := h
          subst hc5
          have e1 : h1 ++ r1 = s := (matchDelimHead_eq hm).1
          have e2 : sp1 ++ q1 = r1 := by
            have h3 := spanP_append isPySpace r1; rw [hp1] at h3; exact h3
          have e3 : d1 ++ q2 = q1 := by
            have h3 := spanP_append isDig q1; rw [hp2] at h3; exact h3
          have e4 : sp2 ++ q3 = q2 := by
            have h3 := spanP_append isPySpace q2; rw [hp3] at h3; exact h3
          have e5 : h2 ++ r4 = q3 := matchLitCI_append _ _ _ _ hlit2
          have e6 : sp3 ++ (':' :: r6) = r4 := by
            have h3 := spanP_append isPySpace r4; rw [hp4] at h3; exact h3
          have e7 : sp4 ++ q5 = r6 := by
            have h3 := spanP_append isPySpace r6; rw [hp5] at h3; exact h3
          have e8 : d2x ++ q6 = q5 := by
            have h3 := spanP_append isDig q5; rw [hp6] at h3; exact h3
          refine ⟨?_, ?_, ?_⟩
          · subst e2 e3 e4 e5 e6 e7 e8
            rw [← e1]
            simp [List.append_assoc]
          · refine ⟨h1, sp1, d1, sp2, h2, sp3, sp4, by simp, (matchDelimHead_eq hm).2,
              ?_, ?_, hd1, ?_, hsp2, matchLitCI_map _ _ _ _ hlit2, ?_, ?_, ?_, hd2, rfl⟩
            · intro c hc
              have hmem : c ∈ (spanP isPySpace r1).1 := by rw [hp1]; exact hc
              exact spanP_all _ _ _ hmem
            · intro c hc
              have hmem : c ∈ (spanP isDig q1).1 := by rw [hp2]; exact hc
              exact spanP_all _ _ _ hmem
            · intro c hc
              have hmem : c ∈ (spanP isPySpace q2).1 := by rw [hp3]; exact hc
              exact spanP_all _ _ _ hmem
            · intro c hc
              have hmem : c ∈ (spanP isPySpace r4).1 := by rw [hp4]; exact hc
              exact spanP_all _ _ _ hmem
            · intro c hc
              have hmem : c ∈ (spanP isPySpace r6).1 := by rw [hp5]; exact hc
              exact spanP_all _ _ _ hmem
            · intro c hc
              have hmem : c ∈ (spanP isDig q5).1 := by rw [hp6]; exact hc
              exact spanP_all _ _ _ hmem
          · intro c hc
            refine spanP_head isDig q5 c ?_
            rw [hp6]
            exact hc
        · rw [if_neg hc5] at h
          exact absurd h (by simp)

theorem qid_head {a : List Char} (hmap : a.map lowerc = qidLit) :
    ∃ c t, a = c :: t ∧ lowerc c = 'q' := by
  cases a with
  | nil => simp [qidLit] at hmap
  | cons c t =>
    refine ⟨c, t, rfl, ?_⟩
    have h9 := congrArg List.head? hmap
    rw [show qidLit.head? = some 'q' from rfl] at h9
    simpa using h9

theorem matchDelimFull_of_shape {n : Nat} {d2 con : List Char} (hs : fullShape n d2 con)
    (u : List Char) (hu : ∀ c, u.head? = some c → isDig c = false) :
    matchDelimFull (con ++ u) = some (n, d2, con, u) := by
  obtain ⟨h1, sp1, d1, sp2, h2, sp3, sp4, hcon, hh1, hsp1, hd1, hd1ne, hsp2a, hsp2ne,
    hmap2, hsp3, hsp4, hd2, hd2ne, hn⟩ := hs
  subst hcon
  subst hn
  have hassoc : (h1 ++ (sp1 ++ (d1 ++ (sp2 ++ (h2 ++ (sp3 ++ (':' :: (sp4 ++ d2)))))))) ++ u
      = h1 ++ (sp1 ++ (d1 ++ (sp2 ++ (h2 ++ (sp3 ++ (':' :: (sp4 ++ (d2 ++ u)))))))) := by
    simp [List.append_assoc]
  rw [hassoc]
  unfold matchDelimFull
  rw [matchDelimHead_of_shape hh1]
  dsimp only
  have hstep1 : spanP isPySpace
      (sp1 ++ (d1 ++ (sp2 ++ (h2 ++ (sp3 ++ (':' :: (sp4 ++ (d2 ++ u)))))))) =
      (sp1, d1 ++ (sp2 ++ (h2 ++ (sp3 ++ (':' :: (sp4 ++ (d2 ++ u))))))) := by
    refine spanP_eq _ _ _ hsp1 ?_
    intro c hc
    exact isDig_not_space (head_all_append _ hd1 hd1ne c hc)
  rw [hstep1]
  dsimp only
  have hstep2 : spanP isDig (d1 ++ (sp2 ++ (h2 ++ (sp3 ++ (':' :: (sp4 ++ (d2 ++ u))))))) =
      (d1, sp2 ++ (h2 ++ (sp3 ++ (':' :: (sp4 ++ (d2 ++ u)))))) := by
    refine spanP_eq _ _ _ hd1 ?_
    intro c hc
    exact isSpace_not_dig (head_all_append _ hsp2a hsp2ne c hc)
  rw [hstep2]
  dsimp only
  rw [if_neg hd1ne]
  have hstep3 : spanP isPySpace (sp2 ++ (h2 ++ (sp3 ++ (':' :: (sp4 ++ (d2 ++ u)))))) =
      (sp2, h2 ++ (sp3 ++ (':' :: (sp4 ++ (d2 ++ u))))) := by
    refine spanP_eq _ _ _ hsp2a ?_
    intro c hc
    obtain ⟨ch, ht, rfl, hq⟩ := qid_head hmap2
    simp only [List.cons_append, List.head?_cons, Option.some.injEq] at hc
    subst hc
    cases hsp : isPySpace ch
    · rfl
    · exact absurd hq (isPySpace_ne_q hsp)
  rw [hstep3]
  dsimp only
  rw [if_neg hsp2ne]
  have hstep4 : matchLitCI qidLit (h2 ++ (sp3 ++ (':' :: (sp4 ++ (d2 ++ u))))) =
      some (h2, sp3 ++ (':' :: (sp4 ++ (d2 ++ u)))) := by
    rw [← hmap2]
    exact matchLitCI_of_map h2 _
  rw [hstep4]
  dsimp only
  have hstep5 : spanP isPySpace (sp3 ++ (':' :: (sp4 ++ (d2 ++ u)))) =
      (sp3, ':' :: (sp4 ++ (d2 ++ u))) := by
    refine spanP_eq _ _ _ hsp3 ?_
    intro c hc
    simp only [List.head?_cons, Option.some.injEq] at hc
    subst hc
    rfl
  rw [hstep5]
  dsimp only
  rw [if_pos rfl]
  have hstep6 : spanP isPySpace (sp4 ++ (d2 ++ u)) = (sp4, d2 ++ u) := by
    refine spanP_eq _ _ _ hsp4 ?_
    intro c hc
    exact isDig_not_space (head_all_append _ hd2 hd2ne c hc)
  rw [hstep6]
  dsimp only
  have hstep7 : spanP isDig (d2 ++ u) = (d2, u) := spanP_eq _ _ _ hd2 hu
  rw [hstep7]
  dsimp only
  rw [if_neg hd2ne]
  simp [List.append_assoc]

/-! ### No block boundary falls strictly inside a well-formed delimiter span -/

theorem matchDelimHead_none_of_ne_q {c : Char} {t : List Char} (h : lowerc c ≠ 'q') :
    matchDelimHead (c :: t) = none := by
  cases hm : matchDelimHead (c :: t) with
  | none => rfl
  | some x => exact absurd (matchDelimHead_first hm) h

theorem suffix_append_cases {m : List Char} : ∀ {a b : List Char}, m <:+ a ++ b →
    m <:+ b ∨ ∃ a2, a2 <:+ a ∧ a2 ≠ [] ∧ m = a2 ++ b := by
  intro a
  induction a with
  | nil =>
    intro b h
    exact Or.inl (by simpa using h)
  | cons c a1 ih =>
    intro b h
    rw [List.cons_append, List.suffix_cons_iff] at h
    rcases h with rfl | h
    · exact Or.inr ⟨c :: a1, List.suffix_rfl, by simp, by simp⟩
    · rcases ih h with h1 | ⟨a2, ha2, hne, rfl⟩
      · exact Or.inl h1
      · exact Or.inr ⟨a2, List.suffix_cons_iff.mpr (Or.inr ha2), hne, rfl⟩

theorem noStop_of_seg {seg X u m2 a2 : List Char}
    (hm : m2 = a2 ++ X) (ha : a2 <:+ seg) (hne : a2 ≠ []) (hX : X ≠ [])
    (hP : ∀ c ∈ seg, lowerc c ≠ 'q') :
    matchDelimHead (m2 ++ u) = none ∧ m2 ++ u ≠ ['\n'] := by
  constructor
  · cases a2 with
    | nil => exact absurd rfl hne
    | cons c t =>
      have hc : c ∈ seg := ha.subset (List.mem_cons_self c t)
      subst hm
      rw [show ((c :: t) ++ X) ++ u = c :: ((t ++ X) ++ u) by simp]
      exact matchDelimHead_none_of_ne_q (hP c hc)
  · intro h0
    have hlen := congrArg List.length h0
    subst hm
    simp only [List.length_append, List.length_cons, List.length_nil] at hlen
    have h1 : 0 < a2.length := List.length_pos.mpr hne
    have h2 : 0 < X.length := List.length_pos.mpr hX
    omega

theorem qid_not_delimHead {h2 : List Char} (hmap : h2.map lowerc = qidLit) (z : List Char) :
    matchDelimHead (h2 ++ z) = none := by
  cases hm : matchDelimHead (h2 ++ z) with
  | none => rfl
  | some x =>
    exfalso
    have hlit : (matchLitCI qnumLit (h2 ++ z)).isSome := by
      unfold matchDelimHead at hm
      cases hl : matchLitCI qnumLit (h2 ++ z) with
      | none => rw [hl] at hm; simp at hm
      | some y => simp [hl]
    have hq : qnumLit = "question ".data ++ "number".data := by decide
    rw [hq] at hlit
    obtain ⟨a1, r1, hm1, hm2⟩ := matchLitCI_split _ _ _ hlit
    have htake : (h2.take 9).map lowerc = "question ".data := by
      rw [List.map_take, hmap]
      decide
    have hdrop : (h2.drop 9).map lowerc = "id".data := by
      rw [List.map_drop, hmap]
      decide
    have hm1x : matchLitCI "question ".data (h2.take 9 ++ (h2.drop 9 ++ z)) =
        some (h2.take 9, h2.drop 9 ++ z) := by
      rw [← htake]
      exact matchLitCI_of_map _ _
    rw [show h2 ++ z = h2.take 9 ++ (h2.drop 9 ++ z) by
      rw [← List.append_assoc, List.take_append_drop]] at hm1
    rw [hm1x] at hm1
    simp only [Option.some.injEq, Prod.mk.injEq] at hm1
    obtain ⟨-, hr1⟩ := hm1
    rw [← hr1] at hm2
    cases hd : h2.drop 9 with
    | nil => rw [hd] at hdrop; simp at hdrop
    | cons c t =>
      rw [hd] at hm2 hdrop
      rw [show (c :: t) ++ z = c :: (t ++ z) by simp] at hm2
      obtain ⟨x, hx⟩ := Option.isSome_iff_exists.mp hm2
      have hh := matchLitCI_head (p := "number".data) (by decide) hx
      rw [show ("number".data).head? = some 'n' from rfl] at hh
      have hc : lowerc c = 'i' := by
        have h9 := congrArg List.head? hdrop
        simpa using h9
      rw [hc] at hh
      exact absurd hh (by decide)

theorem scanStop_skip : ∀ (mid u : List Char),
    (∀ m2, m2 <:+ mid → m2 ≠ [] → matchDelimHead (m2 ++ u) = none ∧ m2 ++ u ≠ ['\n']) →
    scanStop (mid ++ u) = (mid ++ (scanStop u).1, (scanStop u).2)
  | [], u, _ => by simp
  | c :: mid1, u, h => by
    have hc := h (c :: mid1) List.suffix_rfl (by simp)
    have hdelim : matchDelimHead (c :: (mid1 ++ u)) = none := by
      have h1 := hc.1
      rwa [List.cons_append] at h1
    have hnl : ¬ (c = '\n' ∧ mid1 ++ u = []) := by
      rintro ⟨rfl, h0⟩
      exact hc.2 (by simp [h0])
    rw [List.cons_append, scanStop]
    rw [hdelim]
    simp only [Option.isSome_none, Bool.false_eq_true, if_false]
    rw [if_neg hnl]
    have ih := scanStop_skip mid1 u (fun m2 hm2 hne =>
      h m2 (List.suffix_cons_iff.mpr (Or.inr hm2)) hne)
    rw [ih]
    rfl

theorem mid_noStop {sp1 d1 sp2 h2 sp3 sp4 d2 : List Char}
    (hsp1 : ∀ c ∈ sp1, isPySpace c = true)
    (hd1 : ∀ c ∈ d1, isDig c = true)
    (hsp2 : ∀ c ∈ sp2, isPySpace c = true)
    (hmap2 : h2.map lowerc = qidLit)
    (hsp3 : ∀ c ∈ sp3, isPySpace c = true)
    (hsp4 : ∀ c ∈ sp4, isPySpace c = true)
    (hd2 : ∀ c ∈ d2, isDig c = true) (hd2ne : d2 ≠ [])
    (u : List Char) :
    ∀ m2, m2 <:+ (sp1 ++ (d1 ++ (sp2 ++ (h2 ++ (sp3 ++ (':' :: (sp4 ++ d2))))))) →
      m2 ≠ [] → matchDelimHead (m2 ++ u) = none ∧ m2 ++ u ≠ ['\n'] := by
  intro m2 hsuf hne
  have hX6 : sp4 ++ d2 ≠ [] := fun h0 => hd2ne (List.append_eq_nil.mp h0).2
  have hX5 : (':' :: (sp4 ++ d2) : List Char) ≠ [] := by simp
  have hX4 : sp3 ++ (':' :: (sp4 ++ d2)) ≠ [] := fun h0 => hX5 (List.append_eq_nil.mp h0).2
  have hX3 : h2 ++ (sp3 ++ (':' :: (sp4 ++ d2))) ≠ [] :=
    fun h0 => hX4 (List.append_eq_nil.mp h0).2
  have hX2 : sp2 ++ (h2 ++ (sp3 ++ (':' :: (sp4 ++ d2)))) ≠ [] :=
    fun h0 => hX3 (List.append_eq_nil.mp h0).2
  have hX1 : d1 ++ (sp2 ++ (h2 ++ (sp3 ++ (':' :: (sp4 ++ d2))))) ≠ [] :=
    fun h0 => hX2 (List.append_eq_nil.mp h0).2
  rcases suffix_append_cases hsuf with hs1 | ⟨a2, ha2, hane, rfl⟩
  swap
  · exact noStop_of_seg rfl ha2 hane hX1 (fun c hc => isPySpace_ne_q (hsp1 c hc))
  rcases suffix_append_cases hs1 with hs2 | ⟨a2, ha2, hane, rfl⟩
  swap
  · exact noStop_of_seg rfl ha2 hane hX2 (fun c hc => isDig_ne_q (hd1 c hc))
  rcases suffix_append_cases hs2 with hs3 | ⟨a2, ha2, hane, rfl⟩
  swap
  · exact noStop_of_seg rfl ha2 hane hX3 (fun c hc => isPySpace_ne_q (hsp2 c hc))
  obtain ⟨ch, ht, rfl, hq⟩ := qid_head hmap2
  rw [List.cons_append, List.suffix_cons_iff] at hs3
  rcases hs3 with rfl | hs4
  · constructor
    · rw [show (ch :: (ht ++ (sp3 ++ (':' :: (sp4 ++ d2))))) ++ u =
          (ch :: ht) ++ ((sp3 ++ (':' :: (sp4 ++ d2))) ++ u) by simp]
      exact qid_not_delimHead hmap2 _
    · intro h0
      have hlen := congrArg List.length h0
      simp only [List.cons_append, List.length_cons, List.length_append,
        List.length_nil] at hlen
      have h2' : 0 < (':' :: (sp4 ++ d2) : List Char).length := by simp
      omega
  rcases suffix_append_cases hs4 with hs5 | ⟨a2, ha2, hane, rfl⟩
  swap
  · refine noStop_of_seg rfl ha2 hane hX4 ?_
    intro c hc
    have hm1 : ht.map lowerc = qidLit.tail := by
      simpa using congrArg List.tail hmap2
    have hmem : lowerc c ∈ qidLit.tail := hm1 ▸ List.mem_map_of_mem lowerc hc
    intro hq2
    rw [hq2] at hmem
    revert hmem
    decide
  rcases suffix_append_cases hs5 with hs6 | ⟨a2, ha2, hane, rfl⟩
  swap
  · exact noStop_of_seg rfl ha2 hane hX5 (fun c hc => isPySpace_ne_q (hsp3 c hc))
  rw [show (':' :: (sp4 ++ d2) : List Char) = [':'] ++ (sp4 ++ d2) from rfl] at hs6
  rcases suffix_append_cases hs6 with hs7 | ⟨a2, ha2, hane, rfl⟩
  swap
  · refine noStop_of_seg rfl ha2 hane hX6 ?_
    intro c hc
    rcases List.mem_singleton.mp hc with rfl
    decide
  rcases suffix_append_cases hs7 with hs8 | ⟨a2, ha2, hane, rfl⟩
  swap
  · exact noStop_of_seg rfl ha2 hane hd2ne (fun c hc => isPySpace_ne_q (hsp4 c hc))
  cases m2 with
  | nil => exact absurd rfl hne
  | cons c t =>
    have hc : c ∈ d2 := hs8.subset (List.mem_cons_self c t)
    constructor
    · rw [show (c :: t) ++ u = c :: (t ++ u) by simp]
      exact matchDelimHead_none_of_ne_q (isDig_ne_q (hd2 c hc))
    · intro h0
      rw [show (c :: t) ++ u = c :: (t ++ u) by simp] at h0
      have hcc : c = '\n' := by
        have h9 := congrArg List.head? h0
        simpa using h9
      subst hcc
      exact absurd (hd2 _ hc) (by decide)

theorem block_filter_pass {s : List Char} {n : Nat} {d2 con rest : List Char}
    (hf : matchDelimFull s = some (n, d2, con, rest)) :
    ∀ {b rest0 : List Char}, takeBlock s = some (b, rest0) →
      searchDelimFull b = some (n, d2) := by
  intro b rest0 htb
  obtain ⟨hcs, hshape, hrest⟩ := matchDelimFull_eq hf
  have hsh2 := hshape
  obtain ⟨h1, sp1, d1, sp2, h2, sp3, sp4, hcon, hh1, hsp1, hd1, hd1ne, hsp2a, hsp2ne,
    hmap2, hsp3, hsp4, hd2, hd2ne, hn⟩ := hsh2
  have hs : s = h1 ++
      ((sp1 ++ (d1 ++ (sp2 ++ (h2 ++ (sp3 ++ (':' :: (sp4 ++ d2))))))) ++ rest) := by
    rw [← hcs, hcon]
    simp [List.append_assoc]
  have hmh : matchDelimHead s =
      some (h1, (sp1 ++ (d1 ++ (sp2 ++ (h2 ++ (sp3 ++ (':' :: (sp4 ++ d2))))))) ++ rest) := by
    rw [hs]
    exact matchDelimHead_of_shape hh1 _
  unfold takeBlock at htb
  rw [hmh] at htb
  dsimp only at htb
  have hskip := scanStop_skip _ rest
    (mid_noStop hsp1 hd1 hsp2a hmap2 hsp3 hsp4 hd2 hd2ne rest)
  rw [hskip] at htb
  dsimp only at htb
  simp only [Option.some.injEq, Prod.mk.injEq] at htb
  obtain ⟨rfl, rfl⟩ := htb
  have hu : ∀ c, ((scanStop rest).1).head? = some c → isDig c = false := by
    intro c hc
    have happ := scanStop_append rest
    cases hsc : (scanStop rest).1 with
    | nil => rw [hsc] at hc; simp at hc
    | cons d t =>
      rw [hsc] at hc happ
      simp only [List.head?_cons, Option.some.injEq] at hc
      subst hc
      refine hrest _ ?_
      rw [← happ]
      simp
  have hfb := matchDelimFull_of_shape hshape ((scanStop rest).1) hu
  have hb : h1 ++ ((sp1 ++ (d1 ++ (sp2 ++ (h2 ++ (sp3 ++ (':' :: (sp4 ++ d2))))))) ++
      (scanStop rest).1) = con ++ (scanStop rest).1 := by
    rw [hcon]
    simp [List.append_assoc]
  obtain ⟨c0, t0, hh1eq, _, _⟩ := headShape_cons hh1
  subst hh1eq
  have hfb2 : matchDelimFull (c0 :: (t0 ++
      ((sp1 ++ (d1 ++ (sp2 ++ (h2 ++ (sp3 ++ (':' :: (sp4 ++ d2))))))) ++
        (scanStop rest).1))) = some (n, d2, con, (scanStop rest).1) := by
    rw [show c0 :: (t0 ++
        ((sp1 ++ (d1 ++ (sp2 ++ (h2 ++ (sp3 ++ (':' :: (sp4 ++ d2))))))) ++
          (scanStop rest).1)) = (c0 :: t0) ++
        ((sp1 ++ (d1 ++ (sp2 ++ (h2 ++ (sp3 ++ (':' :: (sp4 ++ d2))))))) ++
          (scanStop rest).1) by simp]
    rw [hb]
    exact hfb
  rw [show (c0 :: t0) ++ ((sp1 ++ (d1 ++ (sp2 ++ (h2 ++ (sp3 ++ (':' :: (sp4 ++ d2))))))) ++
      (scanStop rest).1) = c0 :: (t0 ++
        ((sp1 ++ (d1 ++ (sp2 ++ (h2 ++ (sp3 ++ (':' :: (sp4 ++ d2))))))) ++
          (scanStop rest).1)) by simp]
  simp only [searchDelimFull, hfb2]

/-! ### Every raw block beginning a well-formed delimiter passes the filter -/

theorem rawBlocksAux_pass : ∀ (fuel : Nat) (s : List Char), s.length ≤ fuel →
    (∀ u, u <:+ s → (matchDelimHead u).isSome → (matchDelimFull u).isSome) →
    ∀ b ∈ rawBlocksAux fuel s, (searchDelimFull b).isSome
  | 0, s, h, _, b, hb => by
    rw [show rawBlocksAux 0 s = [] from rfl] at hb
    exact absurd hb (List.not_mem_nil b)
  | fuel + 1, s, h, H, b, hb => by
    simp only [rawBlocksAux] at hb
    cases htb : takeBlock (splitAtDelim s).2 with
    | none => rw [htb] at hb; exact absurd hb (List.not_mem_nil b)
    | some br =>
      obtain ⟨b1, rest⟩ := br
      rw [htb] at hb
      have hsnd : (splitAtDelim s).2 <:+ s := ⟨(splitAtDelim s).1, splitAtDelim_append s⟩
      have hhead : (matchDelimHead ((splitAtDelim s).2)).isSome := by
        cases hm : matchDelimHead ((splitAtDelim s).2) with
        | none => unfold takeBlock at htb; rw [hm] at htb; exact absurd htb (by simp)
        | some x => rfl
      have hfull := H _ hsnd hhead
      obtain ⟨⟨n, d2, con, rest1⟩, hf⟩ := Option.isSome_iff_exists.mp hfull
      rcases List.mem_cons.mp hb with rfl | hb2
      · rw [block_filter_pass hf htb]
        rfl
      · have hrs : rest <:+ s := by
          obtain ⟨hap, _⟩ := takeBlock_eq htb
          exact List.IsSuffix.trans ⟨b1, hap⟩ hsnd
        exact rawBlocksAux_pass fuel rest
          (by have := takeBlock_rest_lt htb; have := splitAtDelim_snd_length s; omega)
          (fun u hu hh => H u (hu.trans hrs) hh) b hb2

theorem matchDelimFull_head_isSome {s : List Char} (h : (matchDelimFull s).isSome) :
    (matchDelimHead s).isSome := by
  unfold matchDelimFull at h
  cases hm : matchDelimHead s with
  | none => rw [hm] at h; simp at h
  | some x => rfl

theorem wf_eq_delimCount : ∀ (t : List Char),
    (∀ u, u <:+ t → (matchDelimHead u).isSome → (matchDelimFull u).isSome) →
    wfDelimCount t = delimCount t
  | [], _ => rfl
  | c :: t, H => by
    simp only [wfDelimCount, delimCount]
    rw [wf_eq_delimCount t (fun u hu hh => H u (List.suffix_cons_iff.mpr (Or.inr hu)) hh)]
    congr 1
    by_cases hh : (matchDelimHead (c :: t)).isSome
    · have hfull := H (c :: t) List.suffix_rfl hh
      simp [hh, hfull]
    · have hnf : ¬ (matchDelimFull (c :: t)).isSome := fun hf => hh (matchDelimFull_head_isSome hf)
      simp [hh, hnf]

theorem filterBlocksAux_all (pats : List Matcher) (ai : List Char → Option (List Char)) :
    ∀ (i : Nat) (bs : List (List Char)), (∀ b ∈ bs, (searchDelimFull b).isSome) →
    (filterBlocksAux pats ai i bs).map QBlock.full_block = bs ∧
    (filterBlocksAux pats ai i bs).length = bs.length ∧
    (filterBlocksAux pats ai i bs).map QBlock.block_index = List.range' i bs.length
  | _, [], _ => ⟨rfl, rfl, rfl⟩
  | i, b :: bs, h => by
    have hb := h b (List.mem_cons_self b bs)
    obtain ⟨⟨n, d2⟩, hsd⟩ := Option.isSome_iff_exists.mp hb
    simp only [filterBlocksAux, hsd]
    obtain ⟨ih1, ih2, ih3⟩ := filterBlocksAux_all pats ai (i + 1) bs
      (fun b2 hb2 => h b2 (List.mem_cons_of_mem b hb2))
    refine ⟨by simp [ih1], by simp [ih2], ?_⟩
    simp only [List.map_cons, List.length_cons, ih3, List.range'_succ]

theorem filterBlocksAux_ge (pats : List Matcher) (ai : List Char → Option (List Char)) :
    ∀ (i : Nat) (bs : List (List Char)) (q : QBlock),
    q ∈ filterBlocksAux pats ai i bs → i ≤ q.block_index
  | _, [], q, hq => absurd hq (List.not_mem_nil q)
  | i, b :: bs, q, hq => by
    simp only [filterBlocksAux] at hq
    cases hsd : searchDelimFull b with
    | none =>
      rw [hsd] at hq
      have := filterBlocksAux_ge pats ai (i + 1) bs q hq
      omega
    | some nd =>
      obtain ⟨n, d2⟩ := nd
      rw [hsd] at hq
      rcases List.mem_cons.mp hq with rfl | hq2
      · exact Nat.le_refl i
      · have := filterBlocksAux_ge pats ai (i + 1) bs q hq2
        omega

theorem filterBlocksAux_sorted (pats : List Matcher) (ai : List Char → Option (List Char)) :
    ∀ (i : Nat) (bs : List (List Char)),
    ((filterBlocksAux pats ai i bs).map QBlock.block_index).Pairwise (· < ·)
  | _, [] => by simp [filterBlocksAux]
  | i, b :: bs => by
    simp only [filterBlocksAux]
    cases hsd : searchDelimFull b with
    | none => exact filterBlocksAux_sorted pats ai (i + 1) bs
    | some nd =>
      obtain ⟨n, d2⟩ := nd
      simp only [List.map_cons, List.pairwise_cons]
      refine ⟨?_, filterBlocksAux_sorted pats ai (i + 1) bs⟩
      intro j hj
      simp only [List.mem_map] at hj
      obtain ⟨q, hq, rfl⟩ := hj
      have := filterBlocksAux_ge pats ai (i + 1) bs q hq
      omega

/-! ### The segmentation claims -/

/-- Counterexample to C1 as stated: `c1Text` has exactly one well-formed
delimiter occurrence and `extract_question_blocks` returns exactly one
block, but the block spans cover strictly fewer characters than the input
(the prefix `x ` before the first delimiter belongs to no block), so the
spans do not partition the entire input text. -/
theorem claim_C1_counterexample :
    wfDelimCount c1Text = 1 ∧
    (extract_question_blocks [] noAi c1Text).length = 1 ∧
    (((extract_question_blocks [] noAi c1Text).map QBlock.full_block).flatten).length <
      c1Text.length := by decide

/-- C1, amended.  When every `Question Number :` occurrence in the text
extends to a full well-formed delimiter and the text does not end with a
newline, `extract_question_blocks` returns exactly one block per
well-formed delimiter occurrence, the blocks are the raw regex blocks in
document order, and their `full_block` spans partition the text from the
first delimiter occurrence to the end; the characters before the first
delimiter belong to no block (they are exactly `(splitAtDelim t).1`). -/
theorem claim_C1 (pats : List Matcher) (ai : List Char → Option (List Char)) (t : List Char)
    (H1 : ∀ u, u <:+ t → (matchDelimHead u).isSome → (matchDelimFull u).isSome)
    (H2 : t.getLast? ≠ some '\n') :
    (extract_question_blocks pats ai t).length = wfDelimCount t ∧
    (extract_question_blocks pats ai t).map QBlock.full_block = rawBlocks t ∧
    (splitAtDelim t).1 ++
      ((extract_question_blocks pats ai t).map QBlock.full_block).flatten = t := by
  have hpass : ∀ b ∈ rawBlocks t, (searchDelimFull b).isSome :=
    rawBlocksAux_pass t.length t (Nat.le_refl _) H1
  obtain ⟨hmap, hlen, -⟩ := filterBlocksAux_all pats ai 0 (rawBlocks t) hpass
  unfold extract_question_blocks
  refine ⟨?_, hmap, ?_⟩
  · rw [hlen, rawBlocks_length, wf_eq_delimCount t H1]
  · rw [hmap]
    exact rawBlocksAux_partition t.length t (Nat.le_refl _) H2

/-- Witness for C1, amended, on a concrete two-question text. -/
theorem claim_C1_witness :
    ((extract_question_blocks [] noAi okText).length = wfDelimCount okText ∧
      (extract_question_blocks [] noAi okText).map QBlock.full_block = rawBlocks okText ∧
      (splitAtDelim okText).1 ++
        ((extract_question_blocks [] noAi okText).map QBlock.full_block).flatten = okText) ∧
    wfDelimCount okText = 2 := by
  constructor
  · refine claim_C1 [] noAi okText ?_ (by decide)
    have hall : ∀ u ∈ okText.tails,
        ((matchDelimHead u).isSome → (matchDelimFull u).isSome) := by decide
    intro u hu
    exact hall u ((List.mem_tails u okText).mpr hu)
  · decide

/-- Counterexample to C9 as stated: on `c9Text` the single returned block
has `block_index = 1`, so the indices are not contiguous starting at 0. -/
theorem claim_C9_counterexample :
    (extract_question_blocks [] noAi c9Text).map QBlock.block_index = [1] ∧
    (extract_question_blocks [] noAi c9Text).map QBlock.block_index ≠
      List.range (extract_question_blocks [] noAi c9Text).length := by decide

/-- C9, amended.  The `block_index` values of the returned blocks are
always strictly increasing (and the blocks appear in document order, being
a subsequence of the raw scan); they are contiguous starting at 0 (the
k-th returned block has `block_index` k) whenever every raw block
contains a well-formed delimiter.  An ill-formed `Question Number :`
occurrence consumes an enumeration index without producing a block, which
breaks contiguity when it precedes a kept block (a trailing dropped block
leaves the kept indices contiguous, so the condition is sufficient but
not necessary). -/
theorem claim_C9 (pats : List Matcher) (ai : List Char → Option (List Char)) (t : List Char) :
    ((extract_question_blocks pats ai t).map QBlock.block_index).Pairwise (· < ·) ∧
    ((∀ b ∈ rawBlocks t, (searchDelimFull b).isSome) →
      (extract_question_blocks pats ai t).map QBlock.block_index =
        List.range (extract_question_blocks pats ai t).length) := by
  constructor
  · exact filterBlocksAux_sorted pats ai 0 (rawBlocks t)
  · intro hpass
    obtain ⟨-, hlen, hidx⟩ := filterBlocksAux_all pats ai 0 (rawBlocks t) hpass
    unfold extract_question_blocks
    rw [hidx, hlen, List.range_eq_range']

/-- Witness for C9, amended, on a concrete two-question text. -/
theorem claim_C9_witness :
    ((extract_question_blocks [] noAi okText).map QBlock.block_index).Pairwise (· < ·) ∧
    (extract_question_blocks [] noAi okText).map QBlock.block_index =
      List.range (extract_question_blocks [] noAi okText).length := by
  refine ⟨(claim_C9 [] noAi okText).1, (claim_C9 [] noAi okText).2 ?_⟩
  decide

/-- C3.  If the document text contains zero delimiter occurrences,
`extract_question_blocks` returns the empty list and `process_pdf`
(past the Ollama precondition and a successfully opened PDF) returns a
failure result carrying the segmentation-specific message, which is
distinct from both precondition-failure message families. -/
theorem claim_C3 (pats : List Matcher) (env : PdfEnv) (output_dir : List Char)
    (pages : List Page) (h1 : env.ollamaOk = true) (h2 : env.doc = some pages)
    (h0 : delimCount ((pages.map (fun p => p.text ++ ['\n'])).flatten) = 0) :
    extract_question_blocks pats (fun pr => query_ollama (env.net pr))
      ((pages.map (fun p => p.text ++ ['\n'])).flatten) = [] ∧
    (process_pdf pats env output_dir).1.success = false ∧
    (process_pdf pats env output_dir).1.message =
      "No questions found using structural pattern".data ∧
    ¬ ("Ollama Error: ".data <+: "No questions found using structural pattern".data) ∧
    ¬ ("Cannot open PDF: ".data <+: "No questions found using structural pattern".data) := by
  have hraw : rawBlocks ((pages.map (fun p => p.text ++ ['\n'])).flatten) = [] := by
    have hl := rawBlocks_length ((pages.map (fun p => p.text ++ ['\n'])).flatten)
    rw [h0] at hl
    exact List.length_eq_zero.mp hl
  have hblocks : extract_question_blocks pats (fun pr => query_ollama (env.net pr))
      ((pages.map (fun p => p.text ++ ['\n'])).flatten) = [] := by
    unfold extract_question_blocks
    rw [hraw]
    rfl
  have hpdf : (process_pdf pats env output_dir).1.success = false ∧
      (process_pdf pats env output_dir).1.message =
        "No questions found using structural pattern".data := by
    unfold process_pdf
    rw [h1]
    simp only [Bool.true_eq_false, if_false]
    rw [h2]
    dsimp only
    rw [if_pos hblocks]
    exact ⟨rfl, rfl⟩
  exact ⟨hblocks, hpdf.1, hpdf.2, by decide, by decide⟩

/-- Witness for C3 on a concrete delimiters-free environment. -/
theorem claim_C3_witness :
    extract_question_blocks [] (fun pr => query_ollama (envNoQ.net pr))
      (([pageNoQ].map (fun p => p.text ++ ['\n'])).flatten) = [] ∧
    (process_pdf [] envNoQ "temp".data).1.success = false ∧
    (process_pdf [] envNoQ "temp".data).1.message =
      "No questions found using structural pattern".data := by
  have h := claim_C3 [] envNoQ "temp".data [pageNoQ] rfl rfl (by decide)
  exact ⟨h.1, h.2.1, h.2.2.1⟩

/-- Counterexample to C4 as stated: `envNoQ` passes the precondition check
(the AI collaborator is reachable and the model present, and the PDF even
opens), yet the run writes no files at all — in particular neither the
summary report nor the viewer — because segmentation found zero blocks
and `process_pdf` returns before `generate_reports`. -/
theorem claim_C4_counterexample :
    envNoQ.ollamaOk = true ∧ envNoQ.doc ≠ none ∧
    (process_pdf [] envNoQ "temp".data).2 = [] ∧
    (process_pdf [] envNoQ "temp".data).1.report_path = [] :=
  ⟨rfl, fun h => Option.noConfusion h, rfl, rfl⟩

/-- C4, amended.  On every run that passes the precondition check, opens
the PDF, and segments at least one block, the summary report and the HTML
viewer are written (their paths are among the files written by the run),
even when zero questions are successfully extracted. -/
theorem claim_C4 (pats : List Matcher) (env : PdfEnv) (output_dir : List Char)
    (pages : List Page) (h1 : env.ollamaOk = true) (h2 : env.doc = some pages)
    (h3 : extract_question_blocks pats (fun pr => query_ollama (env.net pr))
      ((pages.map (fun p => p.text ++ ['\n'])).flatten) ≠ []) :
    (process_pdf pats env output_dir).1.report_path = (reportsPaths output_dir).1 ∧
    (process_pdf pats env output_dir).1.viewer_path = (reportsPaths output_dir).2 ∧
    (reportsPaths output_dir).1 ∈ (process_pdf pats env output_dir).2 ∧
    (reportsPaths output_dir).2 ∈ (process_pdf pats env output_dir).2 := by
  unfold process_pdf
  rw [h1]
  simp only [Bool.true_eq_false, if_false]
  rw [h2]
  dsimp only
  rw [if_neg h3]
  refine ⟨rfl, rfl, ?_, ?_⟩ <;> simp

/-- Witness for C4, amended: an environment with two segmented blocks but
no locatable page regions writes the report and viewer while extracting
zero questions. -/
theorem claim_C4_witness :
    (reportsPaths "temp".data).1 ∈ (process_pdf [] envQ "temp".data).2 ∧
    (reportsPaths "temp".data).2 ∈ (process_pdf [] envQ "temp".data).2 ∧
    (process_pdf [] envQ "temp".data).1.questions_extracted = 0 := by
  have h := claim_C4 [] envQ "temp".data [pageQ] rfl rfl (by decide)
  exact ⟨h.2.2.1, h.2.2.2, rfl⟩
